import Mathlib

/-!
Verification of the vidup scene-segmentation and duplicate-matching engine.

This file gives a shallow embedding of the C++ program (main.cpp): pure
functions translate the source functions, with machine integers modelled as
`Nat` and 32-bit overflow made explicit with `% 2^32` where the source wraps.
The SQLite-backed store is modelled as an explicit record of the two tables
together with the semantics of the SQL statements the program issues.
-/

set_option maxRecDepth 8000

namespace Vidup

/-- 2^32, the modulus of the C++ `uint32_t` arithmetic. -/
def wordSize : Nat := 4294967296

/-- `kFrameSize` from the source: frames are 16x16 = 256 grayscale bytes. -/
def kFrameSize : Nat := 256

/-- One decoded frame, a list of byte values (the source's 256-byte buffer). -/
abbrev Frame := List Nat

/-- The all-zero frame: the source zero-initializes `frames[]`, so the first
comparison is against 256 zero bytes. -/
def zeroFrame : Frame := List.replicate kFrameSize 0

/-- One step of the (reflected, CRC-32C polynomial 0x82F63B78) checksum used by
the hardware `_mm_crc32_u8` / `_mm_crc32_u64` instructions in `crc32acc`. -/
def crc32round (c : Nat) : Nat :=
  if c % 2 = 1 then (c / 2) ^^^ 0x82F63B78 else c / 2

/-- Folding one byte into the CRC-32C accumulator, as `_mm_crc32_u8` does.
`_mm_crc32_u64` on 8 buffer bytes is byte-wise equivalent (the 64-bit load is
little-endian, matching buffer order), so the whole of `crc32acc` is a byte
fold. -/
def crc32byte (c b : Nat) : Nat := crc32round^[8] (c ^^^ b % 256)

/-- `crc32acc(acc, size, buf)` from the source: fold every buffer byte into
the running CRC-32C accumulator. -/
def crc32acc (acc : Nat) (buf : List Nat) : Nat := buf.foldl crc32byte acc

/-- The integer sum `rse` accumulated inside the source's `rmse`: the sum of
squared per-pixel differences.  Each term is at most 255^2 and there are 256
terms, so the `uint32_t` accumulator never wraps (the source comments this). -/
def rse (frame1 frame2 : Frame) : Nat :=
  (List.zipWith (fun (a b : Nat) => (Int.natAbs ((a : Int) - (b : Int)))^2 ) frame1 frame2).sum

/-- `kSceneChangedThreshold` (4.5) translated to the integer domain.
The source compares `sqrt(float(rse) / (256*256)) > 4.5`.  Since
`rse <= 256*255^2 = 16646400 < 2^24`, the `float` conversion is exact; the
division by the power of two 65536 is exact; and single-precision square root
is correctly rounded and monotone, so the comparison holds exactly when
`rse > 4.5^2 * 65536 = 1327104`. -/
def kSceneChangedThresholdRse : Nat := 1327104

/-- The boundary test `rmse(frame, lastFrame) > kSceneChangedThreshold`
from `analyzeScenes`, in exact integer form (see
`kSceneChangedThresholdRse`). -/
def sceneChanged (frame lastFrame : Frame) : Bool :=
  kSceneChangedThresholdRse < rse frame lastFrame

/-- `readFrame`: reads exactly `kFrameSize` bytes (fails near end of stream,
dropping a partial trailing frame) and masks every byte with `0xF0`
("dithering"). Returns the frame and the remaining stream. -/
def readFrame (stream : List Nat) : Option (Frame × List Nat) :=
  if kFrameSize ≤ stream.length then
    some ((stream.take kFrameSize).map (fun b => b &&& 0xF0), stream.drop kFrameSize)
  else
    none

/-- The sequence of frames obtained by calling `readFrame` until exhaustion,
as the `while (readFrame(...))` loop of `analyzeScenes` does. -/
def toFrames (stream : List Nat) : List Frame :=
  match h : readFrame stream with
  | none => []
  | some (f, rest) => f :: toFrames rest
termination_by stream.length
decreasing_by
  simp only [readFrame] at h
  split at h
  · rename_i hle
    simp only [Option.some.injEq, Prod.mk.injEq] at h
    obtain ⟨-, hrest⟩ := h
    subst hrest
    simp only [List.length_drop, kFrameSize] at *
    omega
  · exact absurd h (by simp)

/-- `SceneId` from the source: a fingerprint hash plus a duration in
milliseconds (both `uint32_t`). -/
structure SceneId where
  hash : Nat
  durationMs : Nat
deriving DecidableEq

/-- `Scene` from the source: one occurrence of a fingerprint in a file. -/
structure Scene where
  sceneId : SceneId
  fileId : Int
deriving DecidableEq

/-- The mutable state of the `analyzeScenes` loop, together with the list of
scenes passed to `registerScene` so far (`out`). -/
structure SegState where
  lastFrame : Frame
  crc : Nat
  i : Nat
  iFirstFrame : Nat
  nScenes : Nat
  out : List SceneId
deriving DecidableEq

/-- The duration computation `(i - iFirstFrame) * 1000 / frameRate` of the
source, performed in `uint32_t`: the product wraps modulo 2^32 before the
(unsigned, truncating) division. -/
def durationOf (i iFirstFrame frameRate : Nat) : Nat :=
  (i - iFirstFrame) * 1000 % wordSize / frameRate

/-- The body of the `while (readFrame(...))` loop of `analyzeScenes`:
on a boundary, flush the pending scene when `i > 0` (registration), reset
`crc` and `iFirstFrame`, and count a scene; in all cases fold the frame into
the CRC, remember it as `lastFrame`, and advance `i`.  Note that the source
increments `nScenes` on every boundary, including a boundary at `i = 0`,
which does not flush anything. -/
def segStep (frameRate : Nat) (st : SegState) (frame : Frame) : SegState :=
  if sceneChanged frame st.lastFrame then
    { lastFrame := frame
      crc := crc32acc 0 frame
      i := st.i + 1
      iFirstFrame := st.i
      nScenes := st.nScenes + 1
      out := if 0 < st.i then
          st.out ++ [⟨st.crc, durationOf st.i st.iFirstFrame frameRate⟩]
        else st.out }
  else
    { lastFrame := frame
      crc := crc32acc st.crc frame
      i := st.i + 1
      iFirstFrame := st.iFirstFrame
      nScenes := st.nScenes
      out := st.out }

/-- The initial `analyzeScenes` state: zeroed `frames[]` buffer, `crc = 0`,
`i = iFirstFrame = nScenes = 0`. -/
def initSegState : SegState :=
  { lastFrame := zeroFrame, crc := 0, i := 0, iFirstFrame := 0, nScenes := 0, out := [] }

/-- Running the `analyzeScenes` frame loop over a list of frames. -/
def segRun (frameRate : Nat) (frames : List Frame) : SegState :=
  frames.foldl (segStep frameRate) initSegState

/-- The scenes `analyzeScenes` registers: the ones flushed inside the loop
followed by the unconditional final flush after stream exhaustion. -/
def segScenes (frameRate : Nat) (frames : List Frame) : List SceneId :=
  let st := segRun frameRate frames
  st.out ++ [⟨st.crc, durationOf st.i st.iFirstFrame frameRate⟩]

/-- The scene count `analyzeScenes` prints at the end
(`"%d scenes registered."`): the loop counter plus one for the final flush. -/
def segReported (frameRate : Nat) (frames : List Frame) : Nat :=
  (segRun frameRate frames).nScenes + 1

/-! ### Characterization of the segmentation loop -/

/-- Specification-side description of the boundary indices: scanning the
frames with previous frame `prev` and current index `i`, collect the indices
at which the boundary test fires. -/
def cutsFrom (prev : Frame) (i : Nat) : List Frame → List Nat
  | [] => []
  | f :: rest =>
    if sceneChanged f prev then i :: cutsFrom f (i + 1) rest
    else cutsFrom f (i + 1) rest

/-- Specification-side durations of the scenes delimited by an ascending list
of cut indices, starting from `start`: each scene covers the frames between
two consecutive cuts. -/
def spanDurations (frameRate start : Nat) : List Nat → List Nat
  | [] => []
  | b :: rest => durationOf b start frameRate :: spanDurations frameRate b rest

/-! ### The fingerprint index (SQLite store) -/

/-- `FileStatus::kNone`. -/
def kNone : Nat := 0

/-- `FileStatus::kAnalyzed`. -/
def kAnalyzed : Nat := 1

/-- One row of the `files` table (`FileEntry` in the source): `id INTEGER
PRIMARY KEY, path TEXT UNIQUE, status INTEGER`. -/
structure FileEntry where
  id : Int
  name : String
  status : Nat
deriving DecidableEq

/-- The persisted store: the `files` table and the `scenes` table
(`scenes(hash, duration_ms, file_id)`, here a `Scene` row). -/
structure Db where
  files : List FileEntry
  scenes : List Scene
deriving DecidableEq

/-- `getFileEntry`: `SELECT id, status FROM files WHERE path = ?`; when no row
matches, the source leaves `entry.id = -1`. -/
def getFileEntry (db : Db) (name : String) : FileEntry :=
  match db.files.find? (fun e => e.name == name) with
  | some e => e
  | none => { id := -1, name := name, status := kNone }

/-- The rowid SQLite assigns to a fresh `INSERT INTO files`: one more than the
largest existing rowid (1 for an empty table). -/
def nextFileId (db : Db) : Int :=
  db.files.foldl (fun m e => max m e.id) 0 + 1

/-- `registerFile`: `INSERT INTO files (path, status) VALUES (?, kNone)`.
The `path UNIQUE` constraint makes the insert fail (`none`) when the name is
already present. -/
def registerFile (db : Db) (name : String) : Option Db :=
  if db.files.any (fun e => e.name == name) then none
  else some { db with files := db.files ++ [⟨nextFileId db, name, kNone⟩] }

/-- `updateFileStatus`: `UPDATE files SET status = ? WHERE id = ?`. -/
def updateFileStatus (db : Db) (fileId : Int) (status : Nat) : Db :=
  { db with files := db.files.map (fun e =>
      if e.id == fileId then { e with status := status } else e) }

/-- `registerScene`: `INSERT INTO scenes (hash, duration_ms, file_id)`. -/
def registerScene (db : Db) (scene : Scene) : Db :=
  { db with scenes := db.scenes ++ [scene] }

/-- `deleteFile`: `DELETE FROM files WHERE id = ?`; the
`ON DELETE CASCADE` foreign key removes all scenes owned by the file. -/
def deleteFile (db : Db) (fileId : Int) : Db :=
  { files := db.files.filter (fun e => e.id != fileId)
    scenes := db.scenes.filter (fun s => s.fileId != fileId) }

/-- `getScenesByFile`: `SELECT hash, duration_ms FROM scenes WHERE
file_id = ?`. -/
def getScenesByFile (db : Db) (fileId : Int) : List Scene :=
  db.scenes.filter (fun s => s.fileId == fileId)

/-- First-occurrence deduplication of the file ids of a row list, used to
model `SELECT DISTINCT file_id`. -/
def distinctFileIds (rows : List Scene) : List Int :=
  rows.foldl (fun acc s => if acc.contains s.fileId then acc else acc ++ [s.fileId]) []

/-- `getScenesByHash`: `SELECT DISTINCT file_id FROM scenes WHERE (hash = ?
AND duration_ms = ?)`, each returned row paired with the queried SceneId as
the source does. -/
def getScenesByHash (db : Db) (sceneId : SceneId) : List Scene :=
  (distinctFileIds (db.scenes.filter (fun s => s.sceneId == sceneId))).map
    (fun fid => { sceneId := sceneId, fileId := fid })

/-- `HashCount` from the source: the output rows of `getTopHashes`. -/
structure HashCount where
  sceneId : SceneId
  count : Nat
deriving DecidableEq

/-- First-occurrence deduplication of the SceneIds of a row list, used to
model `GROUP BY hash, duration_ms`. -/
def distinctSceneIds (rows : List Scene) : List SceneId :=
  rows.foldl (fun acc s => if acc.contains s.sceneId then acc else acc ++ [s.sceneId]) []

/-- Sorted insertion for the insertion sort `sortLe`. -/
def insertLe {α : Type _} (le : α → α → Bool) (x : α) : List α → List α
  | [] => [x]
  | y :: ys => if le x y then x :: y :: ys else y :: insertLe le x ys

/-- Insertion sort by a boolean comparison, modelling the store's `ORDER BY`
and the source's `std::sort` calls (which fix only the ordering, not the
placement of ties). -/
def sortLe {α : Type _} (le : α → α → Bool) : List α → List α
  | [] => []
  | x :: xs => insertLe le x (sortLe le xs)

/-- `getTopHashes`: `SELECT hash, duration_ms, COUNT(hash) FROM scenes GROUP
BY hash, duration_ms HAVING COUNT(hash) > 1 ORDER BY duration_ms DESC LIMIT ?`
(modelled for nonnegative limits). -/
def getTopHashes (db : Db) (limit : Nat) : List HashCount :=
  let groups := distinctSceneIds db.scenes
  let counted := groups.map (fun sid =>
    { sceneId := sid, count := (db.scenes.filter (fun s => s.sceneId == sid)).length })
  let kept := counted.filter (fun hc => 1 < hc.count)
  (sortLe (fun a b => b.sceneId.durationMs ≤ a.sceneId.durationMs) kept).take limit

/-! ### The analyze command -/

/-- `analyzeScenes` including its store effects: register every flushed scene
in order, then mark the file `kAnalyzed` — all skipped when `db` is null
(dry run).  Returns the new store and the reported scene count. -/
def analyzeScenes (db : Option Db) (stream : List Nat) (fileId : Int) (frameRate : Nat) :
    Option Db × Nat :=
  let frames := toFrames stream
  let scenes := segScenes frameRate frames
  (match db with
   | none => none
   | some d => some (updateFileStatus
       (scenes.foldl (fun d' s => registerScene d' { sceneId := s, fileId := fileId }) d)
       fileId kAnalyzed),
   segReported frameRate frames)

/-- The `CommandMode::kAnalyze` branch of `Vidup::exec` (the stream is
already open): look up the entry; an Analyzed entry without `--force` is a
no-op success; otherwise delete any existing entry (unless dry-run), register
the file anew (unless dry-run), and run `analyzeScenes` with a null store in
dry-run mode.  Returns the exit code, the resulting store, and the reported
scene count (`none` when `analyzeScenes` was never reached). -/
def execAnalyze (db : Db) (inName : String) (isForced isDryRun : Bool)
    (stream : List Nat) (frameRate : Nat) : Int × Db × Option Nat :=
  let fe := getFileEntry db inName
  if 0 ≤ fe.id ∧ fe.status = kAnalyzed ∧ isForced = false then (0, db, none)
  else
    let db1 := if 0 ≤ fe.id ∧ isDryRun = false then deleteFile db fe.id else db
    if isDryRun then
      (0, db1, some (analyzeScenes none stream fe.id frameRate).2)
    else
      match registerFile db1 inName with
      | none => (1, db1, none)
      | some db2 =>
        let fe2 := getFileEntry db2 inName
        let res := analyzeScenes (some db2) stream fe2.id frameRate
        (0, res.1.getD db2, some res.2)

/-! ### searchFile -/

/-- The union step of `searchFile`: for every scene of the queried file,
append all corpus occurrences of its SceneId (`getScenesByHash` appends to
the accumulator). -/
def foundScenesOf (db : Db) (fileId : Int) : List Scene :=
  (getScenesByFile db fileId).foldl (fun acc s => acc ++ getScenesByHash db s.sceneId) []

/-- `std::sort` of the candidate rows by `fileId` (`a.fileId < b.fileId`
comparator: any reordering that is nondecreasing in `fileId`). -/
def sortByFileId (l : List Scene) : List Scene :=
  sortLe (fun a b => a.fileId ≤ b.fileId) l

/-- The self-match removal of `searchFile`: `erase(lower_bound(fileId),
upper_bound(fileId))` on the fileId-sorted list — on a sorted list the
`lower_bound` prefix is the elements `< fileId` and `upper_bound` drops the
run of elements `≤ fileId`. -/
def eraseFileId (sorted : List Scene) (fileId : Int) : List Scene :=
  sorted.takeWhile (fun s => s.fileId < fileId)
    ++ sorted.dropWhile (fun s => s.fileId ≤ fileId)

/-- The candidate rows of `searchFile` after sorting and self-match
removal. -/
def searchCandidates (db : Db) (fileId : Int) : List Scene :=
  eraseFileId (sortByFileId (foundScenesOf db fileId)) fileId

/-- `countScenes`: walk the fileId-sorted scene list, and for each run of one
`fileId` (delimited by `lower_bound`/`upper_bound`) record the pair
`(fileId, run length)`. -/
def countScenes : List Scene → List (Int × Nat)
  | [] => []
  | s :: rest =>
    (s.fileId, ((s :: rest).takeWhile (fun x => x.fileId ≤ s.fileId)).length)
      :: countScenes ((s :: rest).dropWhile (fun x => x.fileId ≤ s.fileId))
termination_by l => l.length
decreasing_by
  simp only [List.dropWhile_cons, decide_eq_true_eq]
  rw [if_pos (le_refl s.fileId)]
  exact Nat.lt_succ_of_le (List.dropWhile_sublist _).length_le

/-- The ranked `searchFile` output: group counts sorted descending, first
`limit` entries printed. -/
def searchRanked (db : Db) (fileId : Int) (limit : Nat) : List (Int × Nat) :=
  (sortLe (fun a b => b.2 ≤ a.2) (countScenes (searchCandidates db fileId))).take limit

/-! ### top -/

/-- `std::set<FileId>::insert` into an ascending strictly-sorted list. -/
def sortedInsertFileId (x : Int) : List Int → List Int
  | [] => [x]
  | y :: ys =>
    if x < y then x :: y :: ys
    else if x = y then y :: ys
    else y :: sortedInsertFileId x ys

/-- The `std::set<FileId> fileIds` of `top`: every candidate row's file id,
iterated in ascending order. -/
def fileIdSet (scenes : List Scene) : List Int :=
  scenes.foldl (fun s sc => sortedInsertFileId sc.fileId s) []

/-- `relation[g] += d` on the `std::map<FileId, DurationMs>`: ordered
insertion, accumulating in `uint32_t`. -/
def mapAdd : List (Int × Nat) → Int → Nat → List (Int × Nat)
  | [], g, d => [(g, d % wordSize)]
  | (k, v) :: t, g, d =>
    if g < k then (g, d % wordSize) :: (k, v) :: t
    else if g = k then (k, (v + d) % wordSize) :: t
    else (k, v) :: mapAdd t g d

/-- One turn of the `top` accumulation loop for the extracted file `f`: for
every scene of `f` (`fileScenes[f]`), for every occurrence of that SceneId
(`hashScenes[...]`) whose file is still in the working set, accumulate the
scene's duration against that file. -/
def accumRelation (remaining : List Int) (scenes : List Scene) (f : Int) : List (Int × Nat) :=
  (scenes.filter (fun s => s.fileId == f)).foldl
    (fun m fs =>
      (scenes.filter (fun hs => hs.sceneId == fs.sceneId)).foldl
        (fun m' hs =>
          if remaining.contains hs.fileId then mapAdd m' hs.fileId fs.sceneId.durationMs
          else m')
        m)
    []

/-- The destructive `while (!fileIds.empty())` loop of `top`, flattened into
`(f, g, weight)` triples as the source's repacking loop does (the
`std::map`s iterate in ascending key order). -/
def relLoop (scenes : List Scene) : List Int → List (Int × Int × Nat)
  | [] => []
  | f :: rest =>
    (accumRelation rest scenes f).map (fun gd => (f, gd.1, gd.2)) ++ relLoop scenes rest

/-- The output relation of `top` over a candidate row list: the accumulated
pair weights, sorted by weight descending. -/
def topRelations (scenes : List Scene) : List (Int × Int × Nat) :=
  sortLe (fun a b => b.2.2 ≤ a.2.2) (relLoop scenes (fileIdSet scenes))

/-- The candidate rows `foundScenes` that `top` feeds into the relation loop:
all corpus occurrences of each `getTopHashes` candidate. -/
def topFoundScenes (db : Db) (limit : Nat) : List Scene :=
  (getTopHashes db limit).foldl (fun acc hc => acc ++ getScenesByHash db hc.sceneId) []

/-- Specification-side: the candidate SceneIds shared by files `f` and `g`
in the row list, in `f`'s order. -/
def sharedIds (scenes : List Scene) (f g : Int) : List SceneId :=
  ((scenes.filter (fun s => s.fileId == f)).map Scene.sceneId).filter
    (fun sid => sid ∈ (scenes.filter (fun s => s.fileId == g)).map Scene.sceneId)

/-- Specification-side: total duration of the candidate SceneIds shared by
`f` and `g`. -/
def sharedDuration (scenes : List Scene) (f g : Int) : Nat :=
  ((sharedIds scenes f g).map SceneId.durationMs).sum

/-- Specification-side: the value stored for key `k` in an association list
with unique keys (0 when the key is absent). -/
def mval (m : List (Int × Nat)) (k : Int) : Nat :=
  ((m.filter (fun gd => gd.1 == k)).map Prod.snd).sum

theorem cutsFrom_ge (l : List Frame) : ∀ (prev : Frame) (i : Nat),
    ∀ b ∈ cutsFrom prev i l, i ≤ b := by
  induction l with
  | nil => intro prev i b hb; simp [cutsFrom] at hb
  | cons f rest ih =>
    intro prev i b hb
    simp only [cutsFrom] at hb
    by_cases hc : sceneChanged f prev
    · simp only [hc, if_true, List.mem_cons] at hb
      rcases hb with rfl | hb
      · exact le_refl b
      · exact Nat.le_of_succ_le (ih f (i + 1) b hb)
    · simp only [hc, if_false] at hb
      exact Nat.le_of_succ_le (ih f (i + 1) b hb)

theorem spanDurations_append (frameRate y : Nat) (cuts : List Nat) :
    ∀ s, spanDurations frameRate s (cuts ++ [y])
      = spanDurations frameRate s cuts ++ [durationOf y (cuts.getLastD s) frameRate] := by
  induction cuts with
  | nil => intro s; simp [spanDurations]
  | cons b rest ih =>
    intro s
    show durationOf b s frameRate :: spanDurations frameRate b (rest ++ [y]) = _
    rw [ih b, List.getLastD_cons]
    simp [spanDurations]

/-- Closed form of the `analyzeScenes` loop from any state with `i ≥ 1`
(so that every boundary flushes): the index advances by the number of frames,
`iFirstFrame` ends at the last boundary, and the flushed durations are the
spans between consecutive boundaries. -/
theorem segLoop_char (frameRate : Nat) (l : List Frame) : ∀ (st : SegState), 1 ≤ st.i →
    (l.foldl (segStep frameRate) st).i = st.i + l.length
      ∧ (l.foldl (segStep frameRate) st).iFirstFrame
          = (cutsFrom st.lastFrame st.i l).getLastD st.iFirstFrame
      ∧ (l.foldl (segStep frameRate) st).out.map SceneId.durationMs
          = st.out.map SceneId.durationMs
            ++ spanDurations frameRate st.iFirstFrame (cutsFrom st.lastFrame st.i l) := by
  induction l with
  | nil => intro st _; simp [cutsFrom, spanDurations]
  | cons f rest ih =>
    intro st hst
    simp only [List.foldl_cons, cutsFrom]
    by_cases hc : sceneChanged f st.lastFrame
    · simp only [hc, if_true]
      have hstep : segStep frameRate st f =
          { lastFrame := f, crc := crc32acc 0 f, i := st.i + 1, iFirstFrame := st.i,
            nScenes := st.nScenes + 1,
            out := st.out ++ [⟨st.crc, durationOf st.i st.iFirstFrame frameRate⟩] } := by
        simp [segStep, hc, Nat.lt_of_lt_of_le Nat.zero_lt_one hst]
      rw [hstep]
      obtain ⟨h1, h2, h3⟩ := ih
        { lastFrame := f, crc := crc32acc 0 f, i := st.i + 1, iFirstFrame := st.i,
          nScenes := st.nScenes + 1,
          out := st.out ++ [⟨st.crc, durationOf st.i st.iFirstFrame frameRate⟩] }
        (Nat.succ_le_succ (Nat.zero_le st.i))
      refine ⟨?_, ?_, ?_⟩
      · rw [h1]; simp [List.length_cons]; omega
      · rw [h2, List.getLastD_cons]
      · rw [h3]
        simp only [List.map_append, List.map_cons, List.map_nil, spanDurations]
        simp [List.append_assoc]
    · simp only [hc, if_false]
      have hstep : segStep frameRate st f =
          { lastFrame := f, crc := crc32acc st.crc f, i := st.i + 1,
            iFirstFrame := st.iFirstFrame, nScenes := st.nScenes, out := st.out } := by
        simp [segStep, hc]
      rw [hstep]
      obtain ⟨h1, h2, h3⟩ := ih
        { lastFrame := f, crc := crc32acc st.crc f, i := st.i + 1,
          iFirstFrame := st.iFirstFrame, nScenes := st.nScenes, out := st.out }
        (Nat.succ_le_succ (Nat.zero_le st.i))
      refine ⟨?_, ?_, ?_⟩
      · rw [h1]; simp [List.length_cons]; omega
      · rw [h2]; simp
      · rw [h3]; simp

/-- Full closed form of the loop when no boundary fires: the state is only
advanced (frame folded into the CRC, `lastFrame` and `i` updated); nothing is
flushed and `iFirstFrame` is unchanged. -/
theorem segRun_chain (frameRate : Nat) (l : List Frame) : ∀ (st : SegState),
    List.Chain (fun a b => sceneChanged b a = false) st.lastFrame l →
    (l.foldl (segStep frameRate) st).crc = l.foldl crc32acc st.crc
      ∧ (l.foldl (segStep frameRate) st).i = st.i + l.length
      ∧ (l.foldl (segStep frameRate) st).iFirstFrame = st.iFirstFrame
      ∧ (l.foldl (segStep frameRate) st).nScenes = st.nScenes
      ∧ (l.foldl (segStep frameRate) st).out = st.out := by
  induction l with
  | nil => intro st _; simp
  | cons f rest ih =>
    intro st hchain
    rcases hchain with _ | ⟨hf, hrest⟩
    have hstep : segStep frameRate st f =
        { lastFrame := f, crc := crc32acc st.crc f, i := st.i + 1,
          iFirstFrame := st.iFirstFrame, nScenes := st.nScenes, out := st.out } := by
      simp [segStep, hf]
    simp only [List.foldl_cons, hstep]
    obtain ⟨h1, h2, h3, h4, h5⟩ := ih
      { lastFrame := f, crc := crc32acc st.crc f, i := st.i + 1,
        iFirstFrame := st.iFirstFrame, nScenes := st.nScenes, out := st.out }
      (by simpa using hrest)
    refine ⟨by rw [h1], by rw [h2]; simp; omega, by rw [h3], by rw [h4], by rw [h5]⟩

/-- The first frame is special: whether or not the (usually spurious)
comparison against the all-zero buffer fires, the state after frame 0 has
`i = 1`, `iFirstFrame = 0`, `crc = crc32acc 0 f` and `out = []`; only
`nScenes` differs. -/
theorem segRun_first (frameRate : Nat) (f : Frame) (rest : List Frame) :
    segRun frameRate (f :: rest)
      = rest.foldl (segStep frameRate)
          { lastFrame := f, crc := crc32acc 0 f, i := 1, iFirstFrame := 0,
            nScenes := if sceneChanged f zeroFrame then 1 else 0, out := [] } := by
  simp only [segRun, List.foldl_cons]
  by_cases hc : sceneChanged f zeroFrame <;>
    simp [segStep, initSegState, hc]

/-- Shared helper: a stream whose consecutive frames never cross the
threshold produces exactly one scene, covering all frames, with the CRC of
the whole stream. -/
theorem segScenes_noBoundary (frameRate : Nat) (f : Frame) (rest : List Frame)
    (h : List.Chain (fun a b => sceneChanged b a = false) f rest) :
    segScenes frameRate (f :: rest)
      = [⟨(f :: rest).foldl crc32acc 0,
          (f :: rest).length * 1000 % wordSize / frameRate⟩] := by
  obtain ⟨h1, h2, h3, _, h5⟩ := segRun_chain frameRate rest
    { lastFrame := f, crc := crc32acc 0 f, i := 1, iFirstFrame := 0,
      nScenes := if sceneChanged f zeroFrame then 1 else 0, out := [] } (by simpa using h)
  simp only [segScenes, segRun_first, h1, h2, h3, h5, durationOf]
  simp only [List.foldl_cons, List.length_cons, List.nil_append, Nat.sub_zero]
  rw [Nat.add_comm 1 rest.length]

theorem chain_replicate_self {α : Type _} {R : α → α → Prop} (a : α) (h : R a a) :
    ∀ n, List.Chain R a (List.replicate n a)
  | 0 => List.Chain.nil
  | n + 1 => by
    rw [List.replicate_succ]
    exact List.Chain.cons h (chain_replicate_self a h n)

theorem foldl_replicate_fixed {α β : Type _} (f : β → α → β) (b : β) (a : α)
    (h : f b a = b) : ∀ n, (List.replicate n a).foldl f b = b := by
  intro n
  induction n with
  | zero => simp
  | succ n ih => rw [List.replicate_succ, List.foldl_cons, h, ih]

/-- The CRC of the all-zero frame starting from accumulator 0 is 0 (each
zero byte maps the zero accumulator to itself). -/
theorem crc32acc_zeroFrame : crc32acc 0 zeroFrame = 0 := by
  have hb : crc32byte 0 0 = 0 := by decide
  exact foldl_replicate_fixed crc32byte 0 0 hb kFrameSize

theorem rse_self (f : Frame) : rse f f = 0 := by
  induction f with
  | nil => rfl
  | cons a t ih =>
    simp only [rse, List.zipWith_cons_cons, List.sum_cons] at ih ⊢
    simp [ih]

theorem sceneChanged_self (f : Frame) : sceneChanged f f = false := by
  simp [sceneChanged, rse_self, kSceneChangedThresholdRse]

theorem rse_replicate (n a b : Nat) :
    rse (List.replicate n a) (List.replicate n b) = n * (Int.natAbs ((a : Int) - b))^2 := by
  induction n with
  | zero => simp [rse]
  | succ n ih =>
    simp only [List.replicate_succ, rse, List.zipWith_cons_cons, List.sum_cons] at ih ⊢
    rw [ih]
    ring

/-- An all-0xF0 frame against the zeroed buffer crosses the threshold. -/
theorem sceneChanged_f240_zero :
    sceneChanged (List.replicate 256 240) zeroFrame = true := by
  have h : rse (List.replicate 256 240) zeroFrame = 14745600 := by
    rw [zeroFrame, kFrameSize, rse_replicate]
    norm_num
  simp only [sceneChanged, h, kSceneChangedThresholdRse]
  decide

end Vidup

/-- Claim C10: every scene's stored duration is computed in 32-bit unsigned
arithmetic: the durations registered by `analyzeScenes` are exactly
`(frameCount * 1000) mod 2^32 / frameRate` (truncating division) where the
frame counts are the distances between consecutive detected boundaries
(`cutsFrom`, with the non-flushing frame-0 boundary removed) plus the final
flush at stream exhaustion; scenes longer than 4294967 frames silently wrap
through the `% 2^32`. -/
theorem c10_duration_wraps_mod_2_32 (frameRate : Nat) (frames : List Vidup.Frame) :
    (Vidup.segScenes frameRate frames).map Vidup.SceneId.durationMs
      = Vidup.spanDurations frameRate 0
          (((Vidup.cutsFrom Vidup.zeroFrame 0 frames).filter (fun b => decide (0 < b)))
            ++ [frames.length]) := by
  cases frames with
  | nil =>
    simp [Vidup.segScenes, Vidup.segRun, Vidup.initSegState, Vidup.cutsFrom,
      Vidup.spanDurations]
  | cons f rest =>
    have hfilter : (Vidup.cutsFrom Vidup.zeroFrame 0 (f :: rest)).filter
        (fun b => decide (0 < b)) = Vidup.cutsFrom f 1 rest := by
      have hself : (Vidup.cutsFrom f 1 rest).filter (fun b => decide (0 < b))
          = Vidup.cutsFrom f 1 rest := by
        apply List.filter_eq_self.mpr
        intro b hb
        simpa using Nat.lt_of_lt_of_le Nat.zero_lt_one (Vidup.cutsFrom_ge rest f 1 b hb)
      simp only [Vidup.cutsFrom]
      by_cases hc : Vidup.sceneChanged f Vidup.zeroFrame
      · simp only [hc, if_true, List.filter_cons]
        simpa using hself
      · simp only [hc, if_false]
        exact hself
    obtain ⟨h1, h2, h3⟩ := Vidup.segLoop_char frameRate rest
      { lastFrame := f, crc := Vidup.crc32acc 0 f, i := 1, iFirstFrame := 0,
        nScenes := if Vidup.sceneChanged f Vidup.zeroFrame then 1 else 0, out := [] }
      (le_refl 1)
    simp only [Vidup.segScenes, Vidup.segRun_first, hfilter]
    rw [List.map_append, h3, h1, h2]
    simp only [List.map_nil, List.map_cons, List.nil_append, List.length_cons]
    rw [Vidup.spanDurations_append]
    rw [Nat.add_comm 1 rest.length]

/-- Claim C1 (amended): for every frame stream of length N >= 1 in which the
RMSE between consecutive frames never exceeds the 4.5 threshold, exactly one
scene is emitted, flushed after stream exhaustion, whose `durationMs` equals
`(N * 1000) mod 2^32 / frameRate` with integer truncation (the product is
computed in 32-bit unsigned arithmetic; for `N * 1000 < 2^32` this is exactly
`N * 1000 / frameRate`). -/
theorem c1_no_boundary_single_scene (frameRate : Nat) (frames : List Vidup.Frame)
    (h1 : frames ≠ [])
    (h2 : List.Chain' (fun a b => Vidup.sceneChanged b a = false) frames) :
    Vidup.segScenes frameRate frames
      = [⟨frames.foldl Vidup.crc32acc 0, frames.length * 1000 % Vidup.wordSize / frameRate⟩] := by
  cases frames with
  | nil => exact absurd rfl h1
  | cons f rest => exact Vidup.segScenes_noBoundary frameRate f rest h2

/-- Witness for C1 (amended): a single all-zero frame at 30 fps yields exactly
one scene of hash 0 and duration 33 ms. -/
theorem c1_no_boundary_single_scene_witness :
    Vidup.segScenes 30 [Vidup.zeroFrame] = [⟨0, 33⟩] := by
  rw [c1_no_boundary_single_scene 30 [Vidup.zeroFrame] (by simp)
    (List.chain'_singleton Vidup.zeroFrame)]
  rw [List.foldl_cons, List.foldl_nil, Vidup.crc32acc_zeroFrame]
  norm_num [Vidup.wordSize]

/-- Counterexample to C1 as stated: for the stream of 4294968 all-zero frames
at frame rate 1 (no boundary is ever detected), the single emitted scene has
`durationMs = 704` — the 32-bit product `4294968 * 1000` wraps — and not
`4294968 * 1000 / 1 = 4294968000` as the claim requires. -/
theorem c1_counterexample :
    (Vidup.segScenes 1 (List.replicate 4294968 Vidup.zeroFrame)).map Vidup.SceneId.durationMs
        = [704]
      ∧ (704 : Nat) ≠ 4294968 * 1000 / 1 := by
  constructor
  · have hz : Vidup.sceneChanged Vidup.zeroFrame Vidup.zeroFrame = false :=
      Vidup.sceneChanged_self Vidup.zeroFrame
    have hrep : List.replicate 4294968 Vidup.zeroFrame
        = Vidup.zeroFrame :: List.replicate 4294967 Vidup.zeroFrame := by
      rw [← List.replicate_succ]
    rw [hrep, Vidup.segScenes_noBoundary 1 _ _
      (Vidup.chain_replicate_self Vidup.zeroFrame hz 4294967)]
    rw [List.map_cons, List.map_nil, List.length_cons, List.length_replicate]
    norm_num [Vidup.wordSize]
  · norm_num

/-- Claim C2 evaluation: on a one-frame stream whose frame crosses the
threshold against the zeroed comparison buffer (all bytes 0xF0), the code
reports "2 scenes registered" while only one scene is actually flushed:
the boundary at frame 0 increments `nScenes` without registering anything. -/
theorem c2_first_frame_boundary_overcounts :
    Vidup.segReported 30 [List.replicate 256 240] = 2
      ∧ (Vidup.segScenes 30 [List.replicate 256 240]).length = 1 := by
  have hc := Vidup.sceneChanged_f240_zero
  constructor
  · simp only [Vidup.segReported, Vidup.segRun_first, List.foldl_nil, hc, if_true]
  · simp only [Vidup.segScenes, Vidup.segRun_first, List.foldl_nil, hc, if_true,
      List.nil_append, List.length_cons, List.length_nil]


namespace Vidup

/-! ### Insertion sort lemmas -/

theorem insertLe_perm {α : Type _} (le : α → α → Bool) (x : α) :
    ∀ (l : List α), (insertLe le x l).Perm (x :: l) := by
  intro l
  induction l with
  | nil => exact List.Perm.refl _
  | cons y ys ih =>
    simp only [insertLe]
    by_cases h : le x y
    · rw [if_pos h]
    · rw [if_neg h]
      exact (ih.cons y).trans (List.Perm.swap x y ys)

theorem sortLe_perm {α : Type _} (le : α → α → Bool) :
    ∀ (l : List α), (sortLe le l).Perm l := by
  intro l
  induction l with
  | nil => exact List.Perm.refl _
  | cons x xs ih =>
    exact (insertLe_perm le x (sortLe le xs)).trans (ih.cons x)

theorem mem_sortLe {α : Type _} {le : α → α → Bool} {l : List α} {a : α} :
    a ∈ sortLe le l ↔ a ∈ l :=
  (sortLe_perm le l).mem_iff

theorem insertLe_pairwise {α : Type _} {le : α → α → Bool}
    (htrans : ∀ a b c, le a b = true → le b c = true → le a c = true)
    (htot : ∀ a b, le a b = true ∨ le b a = true)
    (x : α) : ∀ (l : List α), l.Pairwise (fun a b => le a b = true) →
    (insertLe le x l).Pairwise (fun a b => le a b = true) := by
  intro l
  induction l with
  | nil => intro _; simp [insertLe]
  | cons y ys ih =>
    intro hl
    rw [List.pairwise_cons] at hl
    obtain ⟨hy, hys⟩ := hl
    simp only [insertLe]
    by_cases h : le x y
    · rw [if_pos h]
      rw [List.pairwise_cons]
      refine ⟨?_, List.pairwise_cons.mpr ⟨hy, hys⟩⟩
      intro z hz
      rcases List.mem_cons.mp hz with rfl | hz
      · exact h
      · exact htrans x y z h (hy z hz)
    · rw [if_neg h]
      rw [List.pairwise_cons]
      refine ⟨?_, ih hys⟩
      intro z hz
      rcases List.mem_cons.mp ((insertLe_perm le x ys).mem_iff.mp hz) with rfl | hz
      · rcases htot z y with h1 | h1
        · exact absurd h1 h
        · exact h1
      · exact hy z hz

theorem sortLe_pairwise {α : Type _} {le : α → α → Bool}
    (htrans : ∀ a b c, le a b = true → le b c = true → le a c = true)
    (htot : ∀ a b, le a b = true ∨ le b a = true) :
    ∀ (l : List α), (sortLe le l).Pairwise (fun a b => le a b = true) := by
  intro l
  induction l with
  | nil => simp [sortLe]
  | cons x xs ih => exact insertLe_pairwise htrans htot x (sortLe le xs) ih

end Vidup

/-- Claim C4: for every database state and every (nonnegative) limit,
`getTopHashes` returns only SceneId groups whose occurrence count is strictly
greater than 1, the returned list is sorted by `durationMs` descending (not
by occurrence count), and it has at most `limit` entries. -/
theorem c4_getTopHashes_spec (db : Vidup.Db) (limit : Nat) :
    (∀ hc ∈ Vidup.getTopHashes db limit, 1 < hc.count)
      ∧ (Vidup.getTopHashes db limit).Pairwise
          (fun a b => b.sceneId.durationMs ≤ a.sceneId.durationMs)
      ∧ (Vidup.getTopHashes db limit).length ≤ limit := by
  refine ⟨?_, ?_, ?_⟩
  · intro hc hmem
    simp only [Vidup.getTopHashes] at hmem
    have h1 := List.mem_of_mem_take hmem
    have h2 := Vidup.mem_sortLe.mp h1
    have h3 := List.mem_filter.mp h2
    simpa using h3.2
  · simp only [Vidup.getTopHashes]
    apply List.Pairwise.sublist (List.take_sublist _ _)
    have hp := @Vidup.sortLe_pairwise Vidup.HashCount
      (fun a b => b.sceneId.durationMs ≤ a.sceneId.durationMs)
      (fun a b c hab hbc => by
        simp only [decide_eq_true_eq] at *
        exact le_trans hbc hab)
      (fun a b => by
        simp only [decide_eq_true_eq]
        exact Nat.le_total b.sceneId.durationMs a.sceneId.durationMs)
      (((Vidup.distinctSceneIds db.scenes).map (fun sid =>
          { sceneId := sid,
            count := (db.scenes.filter (fun s => s.sceneId == sid)).length })).filter
        (fun hc => 1 < hc.count))
    exact hp.imp (fun h => by simpa using h)
  · simp only [Vidup.getTopHashes]
    exact List.length_take_le _ _

namespace Vidup

/-! ### Store and analyze-command lemmas -/

theorem toFrames_short (stream : List Nat) (h : stream.length < kFrameSize) :
    toFrames stream = [] := by
  rw [toFrames]
  have hr : readFrame stream = none := by
    rw [readFrame, if_neg (Nat.not_le.mpr h)]
  rw [hr]

theorem segScenes_nil (frameRate : Nat) : segScenes frameRate [] = [⟨0, 0⟩] := by
  simp [segScenes, segRun, initSegState, durationOf]

theorem segReported_nil (frameRate : Nat) : segReported frameRate [] = 1 := rfl

theorem find?_append_none {α : Type _} (p : α → Bool) (l1 l2 : List α)
    (h : ∀ x ∈ l1, ¬ p x = true) : (l1 ++ l2).find? p = l2.find? p := by
  induction l1 with
  | nil => simp
  | cons a t ih =>
    rw [List.cons_append, List.find?_cons_of_neg _ (h a (List.mem_cons_self a t))]
    exact ih (fun x hx => h x (List.mem_cons_of_mem a hx))

theorem foldl_registerScene (fileId : Int) : ∀ (scenes : List SceneId) (d : Db),
    scenes.foldl (fun d' s => registerScene d' { sceneId := s, fileId := fileId }) d
      = { files := d.files, scenes := d.scenes ++ scenes.map (fun s => ⟨s, fileId⟩) } := by
  intro scenes
  induction scenes with
  | nil => intro d; simp
  | cons s t ih =>
    intro d
    rw [List.foldl_cons, ih]
    simp [registerScene]

theorem le_foldl_max (l : List FileEntry) : ∀ (acc : Int),
    acc ≤ l.foldl (fun m e => max m e.id) acc := by
  induction l with
  | nil => intro acc; simp
  | cons a t ih =>
    intro acc
    exact le_trans (le_max_left acc a.id) (ih (max acc a.id))

theorem mem_le_foldl_max (l : List FileEntry) : ∀ (acc : Int) (e : FileEntry), e ∈ l →
    e.id ≤ l.foldl (fun m e => max m e.id) acc := by
  induction l with
  | nil => intro acc e he; simp at he
  | cons a t ih =>
    intro acc e he
    rcases List.mem_cons.mp he with rfl | he
    · exact le_trans (le_max_right acc e.id) (le_foldl_max t (max acc e.id))
    · exact ih (max acc a.id) e he

theorem id_lt_nextFileId (db : Db) (e : FileEntry) (he : e ∈ db.files) :
    e.id < nextFileId db :=
  Int.lt_add_one_iff.mpr (mem_le_foldl_max db.files 0 e he)

theorem map_update_of_ne (fid : Int) (st : Nat) :
    ∀ (l : List FileEntry), (∀ e ∈ l, e.id ≠ fid) →
    l.map (fun e => if e.id == fid then { e with status := st } else e) = l := by
  intro l
  induction l with
  | nil => intro _; rfl
  | cons a t ih =>
    intro h
    simp only [List.map_cons]
    rw [if_neg (by simp [h a (List.mem_cons_self a t)]),
      ih (fun e he => h e (List.mem_cons_of_mem a he))]

theorem updateFileStatus_append_fresh (l : List FileEntry) (sc : List Scene)
    (i : Int) (nm : String) (st0 st : Nat) (h : ∀ e ∈ l, e.id ≠ i) :
    updateFileStatus { files := l ++ [⟨i, nm, st0⟩], scenes := sc } i st
      = { files := l ++ [⟨i, nm, st⟩], scenes := sc } := by
  simp only [updateFileStatus, List.map_append, map_update_of_ne i st l h,
    List.map_cons, List.map_nil]
  simp

end Vidup

/-- Claim C9: for an input stream with fewer than 256 bytes (zero complete
frames), `analyzeScenes` still registers exactly one scene with hash 0 and
durationMs 0, marks the file Analyzed, and reports one scene registered. -/
theorem c9_empty_stream_one_zero_scene (stream : List Nat) (db : Vidup.Db)
    (fileId : Int) (frameRate : Nat) (h : stream.length < Vidup.kFrameSize) :
    Vidup.analyzeScenes (some db) stream fileId frameRate
      = (some (Vidup.updateFileStatus
          (Vidup.registerScene db { sceneId := ⟨0, 0⟩, fileId := fileId })
          fileId Vidup.kAnalyzed), 1) := by
  simp only [Vidup.analyzeScenes, Vidup.toFrames_short stream h, Vidup.segScenes_nil,
    Vidup.segReported_nil, List.foldl_cons, List.foldl_nil]

/-- Witness for C9: the empty stream on an empty store registers the single
scene (0, 0) for file 5 and reports one scene. -/
theorem c9_empty_stream_one_zero_scene_witness :
    Vidup.analyzeScenes (some ⟨[], []⟩) [] 5 30
      = (some ⟨[], [{ sceneId := ⟨0, 0⟩, fileId := 5 }]⟩, 1) := by
  rw [c9_empty_stream_one_zero_scene [] ⟨[], []⟩ 5 30 (by simp [Vidup.kFrameSize])]
  rfl

/-- Claim C6: with dry-run enabled the store is never mutated — `deleteFile`,
`registerFile`, `registerScene` and `updateFileStatus` are all skipped, so the
resulting store equals the input store — while, unless the command is the
already-Analyzed-without-force no-op, the full segmentation and
fingerprinting logic still runs over the input stream (the reported scene
count is that of the pure segmentation). -/
theorem c6_dry_run_no_store_mutation (db : Vidup.Db) (inName : String) (isForced : Bool)
    (stream : List Nat) (frameRate : Nat) :
    (Vidup.execAnalyze db inName isForced true stream frameRate).2.1 = db
      ∧ (¬(0 ≤ (Vidup.getFileEntry db inName).id
            ∧ (Vidup.getFileEntry db inName).status = Vidup.kAnalyzed
            ∧ isForced = false) →
          (Vidup.execAnalyze db inName isForced true stream frameRate).2.2
            = some (Vidup.segReported frameRate (Vidup.toFrames stream))) := by
  by_cases hc : 0 ≤ (Vidup.getFileEntry db inName).id
      ∧ (Vidup.getFileEntry db inName).status = Vidup.kAnalyzed
      ∧ isForced = false
  · constructor
    · simp only [Vidup.execAnalyze]
      rw [if_pos hc]
    · intro hn
      exact absurd hc hn
  · constructor
    · simp [Vidup.execAnalyze, hc]
    · intro _
      simp [Vidup.execAnalyze, hc, Vidup.analyzeScenes]

/-- Witness for C6: a dry run of the empty stream on an empty store leaves the
store untouched and reports the one scene the segmentation produces. -/
theorem c6_dry_run_no_store_mutation_witness :
    (Vidup.execAnalyze ⟨[], []⟩ "a" false true [] 30).2.1 = (⟨[], []⟩ : Vidup.Db)
      ∧ (Vidup.execAnalyze ⟨[], []⟩ "a" false true [] 30).2.2 = some 1 := by
  obtain ⟨h1, h2⟩ := c6_dry_run_no_store_mutation ⟨[], []⟩ "a" false [] 30
  refine ⟨h1, ?_⟩
  rw [h2 (by simp [Vidup.getFileEntry])]
  rw [Vidup.toFrames_short [] (by simp [Vidup.kFrameSize]), Vidup.segReported_nil]

/-- Claim C5: analyzing a file whose index entry is already Analyzed without
`--force` is a no-op returning the success exit code with the store unchanged
(for any dry-run setting); with `--force` the old entry and all its scenes
are deleted and replaced by the fresh analysis: the new store consists of the
old tables minus the old file id plus the re-registered file (marked
Analyzed) and the newly fingerprinted scenes.  The uniqueness hypothesis `hu`
mirrors the store's `path UNIQUE` constraint. -/
theorem c5_already_analyzed_noop_force_replaces (db : Vidup.Db) (name : String)
    (stream : List Nat) (frameRate : Nat)
    (h1 : 0 ≤ (Vidup.getFileEntry db name).id)
    (h2 : (Vidup.getFileEntry db name).status = Vidup.kAnalyzed)
    (hu : ∀ e ∈ db.files, e.name = name → e.id = (Vidup.getFileEntry db name).id) :
    (∀ isDryRun, Vidup.execAnalyze db name false isDryRun stream frameRate = (0, db, none))
      ∧ Vidup.execAnalyze db name true false stream frameRate
          = (0,
             { files := (db.files.filter (fun e => e.id != (Vidup.getFileEntry db name).id))
                 ++ [⟨Vidup.nextFileId (Vidup.deleteFile db (Vidup.getFileEntry db name).id),
                      name, Vidup.kAnalyzed⟩],
               scenes := (db.scenes.filter
                   (fun s => s.fileId != (Vidup.getFileEntry db name).id))
                 ++ (Vidup.segScenes frameRate (Vidup.toFrames stream)).map
                     (fun s => ⟨s,
                       Vidup.nextFileId
                         (Vidup.deleteFile db (Vidup.getFileEntry db name).id)⟩) },
             some (Vidup.segReported frameRate (Vidup.toFrames stream))) := by
  constructor
  · intro isDryRun
    simp only [Vidup.execAnalyze]
    rw [if_pos ⟨h1, h2, trivial⟩]
  · have hnone : ∀ e ∈ (Vidup.deleteFile db (Vidup.getFileEntry db name).id).files,
        ¬ (e.name == name) = true := by
      intro e he hn
      simp only [Vidup.deleteFile, List.mem_filter, bne_iff_ne, ne_eq] at he
      exact he.2 (hu e he.1 (by simpa using hn))
    have hreg : Vidup.registerFile (Vidup.deleteFile db (Vidup.getFileEntry db name).id) name
        = some { files := (Vidup.deleteFile db (Vidup.getFileEntry db name).id).files
                   ++ [⟨Vidup.nextFileId (Vidup.deleteFile db (Vidup.getFileEntry db name).id),
                        name, Vidup.kNone⟩],
                 scenes := (Vidup.deleteFile db (Vidup.getFileEntry db name).id).scenes } := by
      rw [Vidup.registerFile, if_neg]
      simp only [List.any_eq_true, not_exists, not_and]
      intro e he
      exact fun h => hnone e he h
    simp only [Vidup.execAnalyze]
    rw [if_neg (by simp), if_neg (by simp), if_pos ⟨h1, trivial⟩, hreg]
    dsimp only
    have hfind : Vidup.getFileEntry
        { files := (Vidup.deleteFile db (Vidup.getFileEntry db name).id).files
            ++ [⟨Vidup.nextFileId (Vidup.deleteFile db (Vidup.getFileEntry db name).id),
                 name, Vidup.kNone⟩],
          scenes := (Vidup.deleteFile db (Vidup.getFileEntry db name).id).scenes } name
        = ⟨Vidup.nextFileId (Vidup.deleteFile db (Vidup.getFileEntry db name).id),
           name, Vidup.kNone⟩ := by
      rw [Vidup.getFileEntry]
      rw [Vidup.find?_append_none _ _ _ hnone]
      simp [List.find?_cons]
    rw [hfind]
    simp only [Vidup.analyzeScenes, Vidup.foldl_registerScene, Option.getD_some]
    rw [Vidup.updateFileStatus_append_fresh _ _ _ _ _ _
      (fun e he => Int.ne_of_lt (Vidup.id_lt_nextFileId _ e he))]
    simp [Vidup.deleteFile]

/-- Witness for C5: on a store holding the analyzed file "a" (id 1, one scene),
re-analysis without force is a no-op, and with force the file and its scene
are replaced by the fresh (empty-stream) analysis. -/
theorem c5_already_analyzed_noop_force_replaces_witness :
    Vidup.execAnalyze ⟨[⟨1, "a", 1⟩], [⟨⟨7, 100⟩, 1⟩]⟩ "a" false false [] 30
        = (0, ⟨[⟨1, "a", 1⟩], [⟨⟨7, 100⟩, 1⟩]⟩, none)
      ∧ Vidup.execAnalyze ⟨[⟨1, "a", 1⟩], [⟨⟨7, 100⟩, 1⟩]⟩ "a" true false [] 30
        = (0, ⟨[⟨1, "a", 1⟩], [⟨⟨0, 0⟩, 1⟩]⟩, some 1) := by
  obtain ⟨ha, hb⟩ := c5_already_analyzed_noop_force_replaces
    ⟨[⟨1, "a", 1⟩], [⟨⟨7, 100⟩, 1⟩]⟩ "a" [] 30
    (by decide) (by decide) (by decide)
  refine ⟨ha false, ?_⟩
  rw [hb, Vidup.toFrames_short [] (by simp [Vidup.kFrameSize]), Vidup.segScenes_nil,
    Vidup.segReported_nil]
  decide

namespace Vidup

/-! ### searchFile lemmas -/

theorem sortByFileId_pairwise (l : List Scene) :
    (sortByFileId l).Pairwise (fun a b => a.fileId ≤ b.fileId) := by
  have hp := @sortLe_pairwise Scene
    (fun a b => a.fileId ≤ b.fileId)
    (fun a b c hab hbc => by
      simp only [decide_eq_true_eq] at *
      exact le_trans hab hbc)
    (fun a b => by
      simp only [decide_eq_true_eq]
      exact Int.le_total a.fileId b.fileId)
    l
  exact hp.imp (fun h => by simpa using h)

theorem mem_dropWhile_gt (fileId : Int) :
    ∀ (l : List Scene), l.Pairwise (fun a b => a.fileId ≤ b.fileId) →
    ∀ x ∈ l.dropWhile (fun s => s.fileId ≤ fileId), fileId < x.fileId := by
  intro l
  induction l with
  | nil => intro _ x hx; simp at hx
  | cons s t ih =>
    intro hp x hx
    rw [List.pairwise_cons] at hp
    rw [List.dropWhile_cons] at hx
    by_cases hs : s.fileId ≤ fileId
    · rw [if_pos (by simpa using hs)] at hx
      exact ih hp.2 x hx
    · rw [if_neg (by simpa using hs)] at hx
      rcases List.mem_cons.mp hx with rfl | hx
      · exact lt_of_not_le hs
      · exact lt_of_lt_of_le (lt_of_not_le hs) (hp.1 x hx)

theorem mem_eraseFileId_ne (l : List Scene) (fileId : Int)
    (hp : l.Pairwise (fun a b => a.fileId ≤ b.fileId)) :
    ∀ x ∈ eraseFileId l fileId, x.fileId ≠ fileId := by
  intro x hx
  rcases List.mem_append.mp hx with hx | hx
  · have := List.mem_takeWhile_imp hx
    simp only [decide_eq_true_eq] at this
    exact Int.ne_of_lt this
  · exact Int.ne_of_gt (mem_dropWhile_gt fileId l hp x hx)

theorem countScenes_fileIds : ∀ (l : List Scene), ∀ p ∈ countScenes l,
    ∃ s ∈ l, s.fileId = p.1 := by
  have main : ∀ (n : Nat) (l : List Scene), l.length ≤ n →
      ∀ p ∈ countScenes l, ∃ s ∈ l, s.fileId = p.1 := by
    intro n
    induction n with
    | zero =>
      intro l hl p hp
      have hnil : l = [] := List.eq_nil_of_length_eq_zero (Nat.le_zero.mp hl)
      subst hnil
      simp [countScenes] at hp
    | succ n ih =>
      intro l hl p hp
      cases l with
      | nil => simp [countScenes] at hp
      | cons s rest =>
        simp only [countScenes] at hp
        rcases List.mem_cons.mp hp with rfl | hp
        · exact ⟨s, List.mem_cons_self s rest, rfl⟩
        · have hlen : ((s :: rest).dropWhile (fun x => x.fileId ≤ s.fileId)).length ≤ n := by
            rw [List.dropWhile_cons, if_pos (by simp)]
            have h1 : (rest.dropWhile (fun (x : Scene) => x.fileId ≤ s.fileId)).length
                ≤ rest.length := (List.dropWhile_sublist _).length_le
            have h2 : rest.length + 1 ≤ n + 1 := by simpa using hl
            omega
          obtain ⟨s', hs', he⟩ := ih _ hlen p hp
          refine ⟨s', ?_, he⟩
          rw [List.dropWhile_cons, if_pos (by simp)] at hs'
          exact List.mem_cons_of_mem s ((List.dropWhile_sublist _).mem hs')
  intro l
  exact main l.length l (le_refl _)

end Vidup

/-- Claim C7: for every store and file id, the `searchFile` candidate list
after the self-match removal step contains no row of the queried file, and
consequently the ranked output (counts sorted descending, first `limit`
entries) never includes the queried file itself. -/
theorem c7_searchFile_excludes_self (db : Vidup.Db) (fileId : Int) (limit : Nat) :
    (∀ x ∈ Vidup.searchCandidates db fileId, x.fileId ≠ fileId)
      ∧ (∀ p ∈ Vidup.searchRanked db fileId limit, p.1 ≠ fileId) := by
  have hcand : ∀ x ∈ Vidup.searchCandidates db fileId, x.fileId ≠ fileId := by
    intro x hx
    exact Vidup.mem_eraseFileId_ne _ fileId
      (Vidup.sortByFileId_pairwise (Vidup.foundScenesOf db fileId)) x hx
  refine ⟨hcand, ?_⟩
  intro p hp
  have h1 := List.mem_of_mem_take hp
  have h2 := Vidup.mem_sortLe.mp h1
  obtain ⟨s, hs, he⟩ := Vidup.countScenes_fileIds _ p h2
  rw [← he]
  exact hcand s hs

namespace Vidup

/-! ### Quantization lemmas -/

theorem forall₂_map_eq {α β : Type _} {R : α → α → Prop} {f : α → β}
    (hf : ∀ a b, R a b → f a = f b) :
    ∀ {l1 l2 : List α}, List.Forall₂ R l1 l2 → l1.map f = l2.map f := by
  intro l1 l2 h
  induction h with
  | nil => rfl
  | cons hab _ ih => simp [hf _ _ hab, ih]

/-- Two streams whose bytes agree after the `0xF0` mask decode to identical
frame sequences: `readFrame` clears the low nibble of every byte before
anything else sees it. -/
theorem toFrames_congr : ∀ (n : Nat) (s1 s2 : List Nat), s1.length ≤ n →
    List.Forall₂ (fun a b => a &&& 0xF0 = b &&& 0xF0) s1 s2 →
    toFrames s1 = toFrames s2 := by
  intro n
  induction n with
  | zero =>
    intro s1 s2 hl h
    have h1 : s1 = [] := List.eq_nil_of_length_eq_zero (Nat.le_zero.mp hl)
    subst h1
    have h2 : s2 = [] := by
      have := h.length_eq
      simpa using this.symm
    subst h2
    rfl
  | succ n ih =>
    intro s1 s2 hl h
    have hlen : s1.length = s2.length := h.length_eq
    rw [toFrames, toFrames]
    by_cases hge : kFrameSize ≤ s1.length
    · have hr1 : readFrame s1
          = some ((s1.take kFrameSize).map (fun b => b &&& 0xF0), s1.drop kFrameSize) := by
        rw [readFrame, if_pos hge]
      have hr2 : readFrame s2
          = some ((s2.take kFrameSize).map (fun b => b &&& 0xF0), s2.drop kFrameSize) := by
        rw [readFrame, if_pos (hlen ▸ hge)]
      rw [hr1, hr2]
      dsimp only
      have hhead : (s1.take kFrameSize).map (fun b => b &&& 0xF0)
          = (s2.take kFrameSize).map (fun b => b &&& 0xF0) :=
        forall₂_map_eq (fun a b hab => hab) (List.forall₂_take kFrameSize h)
      have htail : toFrames (s1.drop kFrameSize) = toFrames (s2.drop kFrameSize) := by
        apply ih _ _ _ (List.forall₂_drop kFrameSize h)
        simp only [List.length_drop, kFrameSize] at *
        omega
      rw [hhead, htail]
    · have hr1 : readFrame s1 = none := by rw [readFrame, if_neg hge]
      have hr2 : readFrame s2 = none := by rw [readFrame, if_neg (hlen ▸ hge)]
      rw [hr1, hr2]

theorem forall₂_replicate {α : Type _} {R : α → α → Prop} (a b : α) (h : R a b) :
    ∀ n, List.Forall₂ R (List.replicate n a) (List.replicate n b)
  | 0 => List.Forall₂.nil
  | n + 1 => by
    rw [List.replicate_succ, List.replicate_succ]
    exact List.Forall₂.cons h (forall₂_replicate a b h n)

end Vidup

/-- Claim C8: segmentation output is invariant under low-nibble quantization.
For any two byte streams of equal length whose bytes differ only in their low
4 bits (equal after masking with 0xF0), `analyzeScenes` behaves identically:
same registered SceneId sequence (hashes, durations, boundaries), same store
effects, and same reported count, because `readFrame` masks every byte with
0xF0 before any comparison or hashing. -/
theorem c8_quantization_invariance (s1 s2 : List Nat) (db : Option Vidup.Db)
    (fileId : Int) (frameRate : Nat)
    (h : List.Forall₂ (fun a b => a &&& 0xF0 = b &&& 0xF0) s1 s2) :
    Vidup.analyzeScenes db s1 fileId frameRate = Vidup.analyzeScenes db s2 fileId frameRate
      ∧ Vidup.segScenes frameRate (Vidup.toFrames s1)
          = Vidup.segScenes frameRate (Vidup.toFrames s2) := by
  have hframes : Vidup.toFrames s1 = Vidup.toFrames s2 :=
    Vidup.toFrames_congr s1.length s1 s2 (le_refl _) h
  unfold Vidup.analyzeScenes
  rw [hframes]
  exact ⟨rfl, rfl⟩

/-- Witness for C8: a 256-byte stream of 0x0F bytes and a 256-byte stream of
0x00 bytes (differing only in their low nibbles) analyze identically. -/
theorem c8_quantization_invariance_witness :
    Vidup.analyzeScenes (some ⟨[], []⟩) (List.replicate 256 15) 1 30
      = Vidup.analyzeScenes (some ⟨[], []⟩) (List.replicate 256 0) 1 30 :=
  (c8_quantization_invariance (List.replicate 256 15) (List.replicate 256 0)
    (some ⟨[], []⟩) 1 30
    (Vidup.forall₂_replicate 15 0 (by decide) 256)).1

namespace Vidup

/-! ### top: the working file set -/

theorem sortedInsertFileId_mem (x : Int) : ∀ (l : List Int) (y : Int),
    y ∈ sortedInsertFileId x l ↔ y = x ∨ y ∈ l := by
  intro l
  induction l with
  | nil => intro y; simp [sortedInsertFileId]
  | cons a t ih =>
    intro y
    simp only [sortedInsertFileId]
    by_cases h1 : x < a
    · rw [if_pos h1]; simp
    · rw [if_neg h1]
      by_cases h2 : x = a
      · rw [if_pos h2]
        subst h2
        simp only [List.mem_cons]
        constructor
        · intro h; exact Or.inr h
        · rintro (rfl | h)
          · exact Or.inl rfl
          · exact h
      · rw [if_neg h2]
        simp only [List.mem_cons, ih y]
        tauto

theorem sortedInsertFileId_sorted (x : Int) : ∀ (l : List Int),
    l.Pairwise (fun a b => a < b) → (sortedInsertFileId x l).Pairwise (fun a b => a < b) := by
  intro l
  induction l with
  | nil => intro _; simp [sortedInsertFileId]
  | cons a t ih =>
    intro hp
    rw [List.pairwise_cons] at hp
    simp only [sortedInsertFileId]
    by_cases h1 : x < a
    · rw [if_pos h1]
      rw [List.pairwise_cons]
      refine ⟨?_, List.pairwise_cons.mpr hp⟩
      intro b hb
      rcases List.mem_cons.mp hb with rfl | hb
      · exact h1
      · exact lt_trans h1 (hp.1 b hb)
    · rw [if_neg h1]
      by_cases h2 : x = a
      · rw [if_pos h2]
        exact List.pairwise_cons.mpr hp
      · rw [if_neg h2]
        rw [List.pairwise_cons]
        refine ⟨?_, ih hp.2⟩
        intro b hb
        rcases (sortedInsertFileId_mem x t b).mp hb with rfl | hb
        · omega
        · exact hp.1 b hb

theorem fileIdSet_invariant (scenes : List Scene) : ∀ (acc : List Int),
    acc.Pairwise (fun a b => a < b) →
    (scenes.foldl (fun s sc => sortedInsertFileId sc.fileId s) acc).Pairwise
        (fun a b => a < b)
      ∧ ∀ y, y ∈ scenes.foldl (fun s sc => sortedInsertFileId sc.fileId s) acc
          ↔ y ∈ acc ∨ ∃ s ∈ scenes, s.fileId = y := by
  induction scenes with
  | nil => intro acc hacc; simpa using hacc
  | cons sc t ih =>
    intro acc hacc
    rw [List.foldl_cons]
    obtain ⟨hs, hm⟩ := ih (sortedInsertFileId sc.fileId acc)
      (sortedInsertFileId_sorted sc.fileId acc hacc)
    refine ⟨hs, ?_⟩
    intro y
    rw [hm y, sortedInsertFileId_mem]
    simp only [List.mem_cons]
    constructor
    · rintro ((rfl | h) | ⟨s, hs', rfl⟩)
      · exact Or.inr ⟨sc, Or.inl rfl, rfl⟩
      · exact Or.inl h
      · exact Or.inr ⟨s, Or.inr hs', rfl⟩
    · rintro (h | ⟨s, (rfl | hs'), rfl⟩)
      · exact Or.inl (Or.inr h)
      · exact Or.inl (Or.inl rfl)
      · exact Or.inr ⟨s, hs', rfl⟩

theorem fileIdSet_sorted (scenes : List Scene) :
    (fileIdSet scenes).Pairwise (fun a b => a < b) :=
  (fileIdSet_invariant scenes [] (by simp)).1

theorem mem_fileIdSet (scenes : List Scene) (y : Int) :
    y ∈ fileIdSet scenes ↔ ∃ s ∈ scenes, s.fileId = y := by
  have h := (fileIdSet_invariant scenes [] (by simp)).2 y
  simpa [fileIdSet] using h

end Vidup

namespace Vidup

/-! ### top: the per-file relation map -/

theorem mapAdd_keys_mem (k : Int) (d : Nat) : ∀ (m : List (Int × Nat)) (j : Int),
    j ∈ (mapAdd m k d).map Prod.fst ↔ j = k ∨ j ∈ m.map Prod.fst := by
  intro m
  induction m with
  | nil => intro j; simp [mapAdd]
  | cons p t ih =>
    intro j
    obtain ⟨a, v⟩ := p
    simp only [mapAdd]
    by_cases h1 : k < a
    · rw [if_pos h1]; simp
    · rw [if_neg h1]
      by_cases h2 : k = a
      · rw [if_pos h2]
        subst h2
        simp only [List.map_cons, List.mem_cons]
        tauto
      · rw [if_neg h2]
        simp only [List.map_cons, List.mem_cons, ih j]
        tauto

theorem mapAdd_keys_sorted (k : Int) (d : Nat) : ∀ (m : List (Int × Nat)),
    (m.map Prod.fst).Pairwise (fun a b => a < b) →
    ((mapAdd m k d).map Prod.fst).Pairwise (fun a b => a < b) := by
  intro m
  induction m with
  | nil => intro _; simp [mapAdd]
  | cons p t ih =>
    intro hp
    obtain ⟨a, v⟩ := p
    simp only [List.map_cons, List.pairwise_cons] at hp
    simp only [mapAdd]
    by_cases h1 : k < a
    · rw [if_pos h1]
      simp only [List.map_cons, List.pairwise_cons]
      refine ⟨?_, hp.1, hp.2⟩
      intro b hb
      rcases List.mem_cons.mp hb with rfl | hb
      · exact h1
      · exact lt_trans h1 (hp.1 b hb)
    · rw [if_neg h1]
      by_cases h2 : k = a
      · rw [if_pos h2]
        simp only [List.map_cons, List.pairwise_cons]
        exact hp
      · rw [if_neg h2]
        simp only [List.map_cons, List.pairwise_cons]
        refine ⟨?_, ih hp.2⟩
        intro b hb
        rcases (mapAdd_keys_mem k d t b).mp hb with rfl | hb
        · omega
        · exact hp.1 b hb

theorem mapAdd_values_lt (k : Int) (d : Nat) : ∀ (m : List (Int × Nat)),
    (∀ p ∈ m, p.2 < wordSize) → ∀ p ∈ mapAdd m k d, p.2 < wordSize := by
  intro m
  induction m with
  | nil =>
    intro _ p hp
    simp only [mapAdd, List.mem_singleton] at hp
    subst hp
    exact Nat.mod_lt _ (by simp [wordSize])
  | cons q t ih =>
    intro hv p hp
    obtain ⟨a, v⟩ := q
    simp only [mapAdd] at hp
    by_cases h1 : k < a
    · rw [if_pos h1] at hp
      rcases List.mem_cons.mp hp with rfl | hp
      · exact Nat.mod_lt _ (by simp [wordSize])
      · exact hv p hp
    · rw [if_neg h1] at hp
      by_cases h2 : k = a
      · rw [if_pos h2] at hp
        rcases List.mem_cons.mp hp with rfl | hp
        · exact Nat.mod_lt _ (by simp [wordSize])
        · exact hv p (List.mem_cons_of_mem _ hp)
      · rw [if_neg h2] at hp
        rcases List.mem_cons.mp hp with rfl | hp
        · exact hv (a, v) (List.mem_cons_self _ _)
        · exact ih (fun q hq => hv q (List.mem_cons_of_mem _ hq)) p hp

theorem mval_cons_ne (a : Int) (v : Nat) (t : List (Int × Nat)) (j : Int) (h : a ≠ j) :
    mval ((a, v) :: t) j = mval t j := by
  simp only [mval, List.filter_cons]
  rw [if_neg (by simpa using h)]

theorem mval_cons_eq (a : Int) (v : Nat) (t : List (Int × Nat)) :
    mval ((a, v) :: t) a = v + mval t a := by
  simp only [mval, List.filter_cons]
  rw [if_pos (by simp)]
  simp [mval]

theorem mval_eq_zero_of_not_mem (j : Int) : ∀ (m : List (Int × Nat)),
    j ∉ m.map Prod.fst → mval m j = 0 := by
  intro m
  induction m with
  | nil => intro _; rfl
  | cons p t ih =>
    intro h
    obtain ⟨a, v⟩ := p
    simp only [List.map_cons, List.mem_cons] at h
    push_neg at h
    rw [mval_cons_ne a v t j (fun hc => h.1 hc.symm)]
    exact ih h.2

theorem mval_mapAdd (k : Int) (d : Nat) : ∀ (m : List (Int × Nat)),
    (m.map Prod.fst).Pairwise (fun a b => a < b) →
    (∀ p ∈ m, p.2 < wordSize) →
    ∀ j, mval (mapAdd m k d) j = if j = k then (mval m j + d) % wordSize else mval m j := by
  intro m
  induction m with
  | nil =>
    intro _ _ j
    by_cases h : j = k
    · subst h
      simp [mapAdd, mval_cons_eq, mval]
    · rw [if_neg h]
      simp only [mapAdd]
      rw [mval_cons_ne _ _ _ _ (fun hc => h hc.symm)]
  | cons p t ih =>
    intro hs hv j
    obtain ⟨a, v⟩ := p
    simp only [List.map_cons, List.pairwise_cons] at hs
    simp only [mapAdd]
    by_cases h1 : k < a
    · rw [if_pos h1]
      by_cases h : j = k
      · subst h
        rw [mval_cons_eq]
        have hnm : j ∉ ((a, v) :: t).map Prod.fst := by
          simp only [List.map_cons, List.mem_cons]
          push_neg
          constructor
          · omega
          · intro hc
            have := hs.1 j hc
            omega
        rw [mval_eq_zero_of_not_mem j _ hnm, if_pos rfl]
        simp
      · rw [if_neg h, mval_cons_ne _ _ _ _ (fun hc => h hc.symm)]
    · rw [if_neg h1]
      by_cases h2 : k = a
      · rw [if_pos h2]
        subst h2
        by_cases h : j = k
        · subst h
          rw [mval_cons_eq, mval_cons_eq, if_pos rfl]
          have hnm : j ∉ t.map Prod.fst := by
            intro hc
            have := hs.1 j hc
            omega
          rw [mval_eq_zero_of_not_mem j _ hnm]
          have hvlt : v < wordSize := hv (j, v) (List.mem_cons_self _ _)
          simp [Nat.mod_eq_of_lt hvlt]
        · rw [if_neg h, mval_cons_ne _ _ _ _ (fun hc => h hc.symm),
            mval_cons_ne _ _ _ _ (fun hc => h hc.symm)]
      · rw [if_neg h2]
        by_cases h : j = a
        · subst h
          rw [mval_cons_eq, mval_cons_eq, if_neg (fun hc => h2 hc.symm)]
          rw [ih hs.2 (fun q hq => hv q (List.mem_cons_of_mem _ hq)) j,
            if_neg (fun hc => h2 hc.symm)]
        · rw [mval_cons_ne _ _ _ _ (fun hc => h hc.symm),
            mval_cons_ne _ _ _ _ (fun hc => h hc.symm),
            ih hs.2 (fun q hq => hv q (List.mem_cons_of_mem _ hq)) j]

theorem mval_of_mem (j : Int) (v : Nat) : ∀ (m : List (Int × Nat)),
    (m.map Prod.fst).Pairwise (fun a b => a < b) → (j, v) ∈ m → mval m j = v := by
  intro m
  induction m with
  | nil => intro _ h; simp at h
  | cons p t ih =>
    intro hs hm
    obtain ⟨a, w⟩ := p
    simp only [List.map_cons, List.pairwise_cons] at hs
    rcases List.mem_cons.mp hm with heq | hm
    · obtain ⟨h1, h2⟩ := Prod.mk.inj heq.symm
      subst h1
      subst h2
      rw [mval_cons_eq]
      have hnm : a ∉ t.map Prod.fst := by
        intro hc
        have := hs.1 a hc
        omega
      rw [mval_eq_zero_of_not_mem a _ hnm]
      omega
    · have hj : a ≠ j := by
        intro hc
        subst hc
        have : a ∈ t.map Prod.fst := by
          exact List.mem_map_of_mem Prod.fst hm
        have := hs.1 a this
        omega
      rw [mval_cons_ne a w t j hj]
      exact ih hs.2 hm

theorem countP_key (g : Int) : ∀ (m : List (Int × Nat)),
    (m.map Prod.fst).Pairwise (fun a b => a < b) →
    m.countP (fun gd => gd.1 = g) = if g ∈ m.map Prod.fst then 1 else 0 := by
  intro m
  induction m with
  | nil => intro _; simp
  | cons p t ih =>
    intro hs
    obtain ⟨a, v⟩ := p
    simp only [List.map_cons, List.pairwise_cons] at hs
    rw [List.countP_cons, ih hs.2]
    by_cases h : a = g
    · subst h
      have hnm : a ∉ t.map Prod.fst := by
        intro hc
        have := hs.1 a hc
        omega
      rw [if_neg hnm, if_pos (by simp)]
      simp
    · have hmem : (g ∈ a :: t.map Prod.fst) ↔ g ∈ t.map Prod.fst := by
        rw [List.mem_cons]
        exact or_iff_right (fun hc => h hc.symm)
      have hdec : (decide ((a, v).1 = g)) = false := by simpa using h
      simp only [List.map_cons, hmem, hdec]
      simp

end Vidup

namespace Vidup

theorem exists_val_of_mem_keys (j : Int) : ∀ (m : List (Int × Nat)),
    j ∈ m.map Prod.fst → ∃ v, (j, v) ∈ m := by
  intro m hm
  obtain ⟨⟨a, v⟩, hp, hfst⟩ := List.mem_map.mp hm
  simp only at hfst
  exact ⟨v, hfst ▸ hp⟩

theorem mval_lt (j : Int) (m : List (Int × Nat))
    (hs : (m.map Prod.fst).Pairwise (fun a b => a < b))
    (hv : ∀ p ∈ m, p.2 < wordSize) : mval m j < wordSize := by
  by_cases hm : j ∈ m.map Prod.fst
  · obtain ⟨v, hvm⟩ := exists_val_of_mem_keys j m hm
    rw [mval_of_mem j v m hs hvm]
    exact hv (j, v) hvm
  · rw [mval_eq_zero_of_not_mem j m hm]
    simp [wordSize]

theorem inner_fold_spec (remaining : List Int) (d : Nat) :
    ∀ (hsList : List Scene) (m : List (Int × Nat)),
    (m.map Prod.fst).Pairwise (fun a b => a < b) →
    (∀ p ∈ m, p.2 < wordSize) →
    (((hsList.foldl (fun m' hs =>
          if remaining.contains hs.fileId then mapAdd m' hs.fileId d else m') m).map
        Prod.fst).Pairwise (fun a b => a < b))
      ∧ (∀ p ∈ hsList.foldl (fun m' hs =>
            if remaining.contains hs.fileId then mapAdd m' hs.fileId d else m') m,
          p.2 < wordSize)
      ∧ (∀ j, j ∈ (hsList.foldl (fun m' hs =>
            if remaining.contains hs.fileId then mapAdd m' hs.fileId d else m') m).map
              Prod.fst
          ↔ j ∈ m.map Prod.fst
            ∨ (remaining.contains j = true ∧ ∃ hs ∈ hsList, hs.fileId = j))
      ∧ (∀ j, mval (hsList.foldl (fun m' hs =>
            if remaining.contains hs.fileId then mapAdd m' hs.fileId d else m') m) j
          = (mval m j + (if remaining.contains j = true
              then (hsList.filter (fun hs => hs.fileId == j)).length * d else 0))
            % wordSize) := by
  intro hsList
  induction hsList with
  | nil =>
    intro m hs hv
    refine ⟨hs, hv, by simp, ?_⟩
    intro j
    simp only [List.foldl_nil, List.filter_nil, List.length_nil, Nat.zero_mul, ite_self,
      Nat.add_zero]
    exact (Nat.mod_eq_of_lt (mval_lt j m hs hv)).symm
  | cons hd tl ih =>
    intro m hs hv
    rw [List.foldl_cons]
    by_cases hc : remaining.contains hd.fileId
    · rw [if_pos hc]
      obtain ⟨ih1, ih2, ih3, ih4⟩ := ih (mapAdd m hd.fileId d)
        (mapAdd_keys_sorted hd.fileId d m hs)
        (mapAdd_values_lt hd.fileId d m hv)
      refine ⟨ih1, ih2, ?_, ?_⟩
      · intro j
        rw [ih3 j, mapAdd_keys_mem]
        constructor
        · rintro ((rfl | hm) | ⟨hcj, hs', hmem, rfl⟩)
          · exact Or.inr ⟨hc, hd, List.mem_cons_self _ _, rfl⟩
          · exact Or.inl hm
          · exact Or.inr ⟨hcj, hs', List.mem_cons_of_mem _ hmem, rfl⟩
        · rintro (hm | ⟨hcj, hs', hmem, rfl⟩)
          · exact Or.inl (Or.inr hm)
          · rcases List.mem_cons.mp hmem with rfl | hmem
            · exact Or.inl (Or.inl rfl)
            · exact Or.inr ⟨hcj, hs', hmem, rfl⟩
      · intro j
        rw [ih4 j, mval_mapAdd hd.fileId d m hs hv j]
        by_cases hj : j = hd.fileId
        · subst hj
          rw [if_pos rfl, List.filter_cons,
            if_pos (show ((hd.fileId == hd.fileId) = true) by simp), List.length_cons,
            if_pos hc, if_pos hc, Nat.mod_add_mod]
          congr 1
          ring
        · rw [if_neg hj, List.filter_cons,
            if_neg (show ¬((hd.fileId == j) = true) by simpa using fun hc' => hj hc'.symm)]
    · rw [if_neg hc]
      obtain ⟨ih1, ih2, ih3, ih4⟩ := ih m hs hv
      refine ⟨ih1, ih2, ?_, ?_⟩
      · intro j
        rw [ih3 j]
        constructor
        · rintro (hm | ⟨hcj, hs', hmem, rfl⟩)
          · exact Or.inl hm
          · exact Or.inr ⟨hcj, hs', List.mem_cons_of_mem _ hmem, rfl⟩
        · rintro (hm | ⟨hcj, hs', hmem, rfl⟩)
          · exact Or.inl hm
          · rcases List.mem_cons.mp hmem with rfl | hmem
            · exact absurd hcj hc
            · exact Or.inr ⟨hcj, hs', hmem, rfl⟩
      · intro j
        rw [ih4 j]
        by_cases hj : remaining.contains j
        · rw [if_pos hj, if_pos hj, List.filter_cons,
            if_neg (show ¬((hd.fileId == j) = true) by
              simp only [beq_iff_eq]
              intro hc'
              rw [hc'] at hc
              exact hc hj)]
        · rw [if_neg hj, if_neg hj]

end Vidup

namespace Vidup

theorem outer_fold_spec (remaining : List Int) (scenes : List Scene) :
    ∀ (fsList : List Scene) (m : List (Int × Nat)),
    (m.map Prod.fst).Pairwise (fun a b => a < b) →
    (∀ p ∈ m, p.2 < wordSize) →
    (((fsList.foldl (fun m fs =>
          (scenes.filter (fun hs => hs.sceneId == fs.sceneId)).foldl
            (fun m' hs => if remaining.contains hs.fileId
              then mapAdd m' hs.fileId fs.sceneId.durationMs else m') m) m).map
        Prod.fst).Pairwise (fun a b => a < b))
      ∧ (∀ p ∈ fsList.foldl (fun m fs =>
            (scenes.filter (fun hs => hs.sceneId == fs.sceneId)).foldl
              (fun m' hs => if remaining.contains hs.fileId
                then mapAdd m' hs.fileId fs.sceneId.durationMs else m') m) m,
          p.2 < wordSize)
      ∧ (∀ j, j ∈ (fsList.foldl (fun m fs =>
            (scenes.filter (fun hs => hs.sceneId == fs.sceneId)).foldl
              (fun m' hs => if remaining.contains hs.fileId
                then mapAdd m' hs.fileId fs.sceneId.durationMs else m') m) m).map
              Prod.fst
          ↔ j ∈ m.map Prod.fst
            ∨ (remaining.contains j = true
                ∧ ∃ fs ∈ fsList,
                    ∃ hs ∈ scenes.filter (fun hs => hs.sceneId == fs.sceneId),
                      hs.fileId = j))
      ∧ (∀ j, mval (fsList.foldl (fun m fs =>
            (scenes.filter (fun hs => hs.sceneId == fs.sceneId)).foldl
              (fun m' hs => if remaining.contains hs.fileId
                then mapAdd m' hs.fileId fs.sceneId.durationMs else m') m) m) j
          = (mval m j + (if remaining.contains j = true
              then (fsList.map (fun fs =>
                ((scenes.filter (fun hs => hs.sceneId == fs.sceneId)).filter
                    (fun hs => hs.fileId == j)).length * fs.sceneId.durationMs)).sum
              else 0)) % wordSize) := by
  intro fsList
  induction fsList with
  | nil =>
    intro m hs hv
    refine ⟨hs, hv, by simp, ?_⟩
    intro j
    simp only [List.foldl_nil, List.map_nil, List.sum_nil, ite_self, Nat.add_zero]
    exact (Nat.mod_eq_of_lt (mval_lt j m hs hv)).symm
  | cons fs0 tl ih =>
    intro m hs hv
    rw [List.foldl_cons]
    obtain ⟨in1, in2, in3, in4⟩ := inner_fold_spec remaining fs0.sceneId.durationMs
      (scenes.filter (fun hs => hs.sceneId == fs0.sceneId)) m hs hv
    obtain ⟨ih1, ih2, ih3, ih4⟩ := ih _ in1 in2
    refine ⟨ih1, ih2, ?_, ?_⟩
    · intro j
      rw [ih3 j, in3 j]
      constructor
      · rintro ((hm | ⟨hc, hs', hmem, rfl⟩) | ⟨hc, fs', hmem, hs', hmem', rfl⟩)
        · exact Or.inl hm
        · exact Or.inr ⟨hc, fs0, List.mem_cons_self _ _, hs', hmem, rfl⟩
        · exact Or.inr ⟨hc, fs', List.mem_cons_of_mem _ hmem, hs', hmem', rfl⟩
      · rintro (hm | ⟨hc, fs', hmem, hs', hmem', rfl⟩)
        · exact Or.inl (Or.inl hm)
        · rcases List.mem_cons.mp hmem with rfl | hmem
          · exact Or.inl (Or.inr ⟨hc, hs', hmem', rfl⟩)
          · exact Or.inr ⟨hc, fs', hmem, hs', hmem', rfl⟩
    · intro j
      rw [ih4 j, in4 j, List.map_cons, List.sum_cons, Nat.mod_add_mod]
      by_cases hj : remaining.contains j
      · rw [if_pos hj, if_pos hj, if_pos hj]
        congr 1
        ring
      · rw [if_neg hj, if_neg hj, if_neg hj]

theorem accumRelation_spec (remaining : List Int) (scenes : List Scene) (f : Int) :
    ((accumRelation remaining scenes f).map Prod.fst).Pairwise (fun a b => a < b)
      ∧ (∀ j, j ∈ (accumRelation remaining scenes f).map Prod.fst
          ↔ remaining.contains j = true
            ∧ ∃ fs ∈ scenes.filter (fun s => s.fileId == f),
                ∃ hs ∈ scenes.filter (fun hs => hs.sceneId == fs.sceneId), hs.fileId = j)
      ∧ (∀ j, mval (accumRelation remaining scenes f) j
          = (if remaining.contains j = true
              then ((scenes.filter (fun s => s.fileId == f)).map (fun fs =>
                ((scenes.filter (fun hs => hs.sceneId == fs.sceneId)).filter
                    (fun hs => hs.fileId == j)).length * fs.sceneId.durationMs)).sum
              else 0) % wordSize) := by
  obtain ⟨h1, _, h3, h4⟩ := outer_fold_spec remaining scenes
    (scenes.filter (fun s => s.fileId == f)) [] (by simp) (by simp)
  refine ⟨h1, ?_, ?_⟩
  · intro j
    rw [accumRelation, h3 j]
    simp
  · intro j
    rw [accumRelation, h4 j]
    simp [mval]

end Vidup

namespace Vidup

/-! ### top: combinatorial identities about shared scenes -/

theorem sum_map_filter {α : Type _} (p : α → Bool) (f : α → Nat) :
    ∀ (l : List α), ((l.filter p).map f).sum = (l.map (fun x => if p x then f x else 0)).sum := by
  intro l
  induction l with
  | nil => rfl
  | cons a t ih =>
    rw [List.filter_cons]
    by_cases h : p a
    · rw [if_pos h]
      simp only [List.map_cons, List.sum_cons, ih, if_pos h]
    · rw [if_neg h]
      simp only [List.map_cons, List.sum_cons, ih, if_neg h]
      omega

theorem double_filter_count (scenes : List Scene) (hnd : scenes.Nodup)
    (sid : SceneId) (g : Int) :
    ((scenes.filter (fun hs => hs.sceneId == sid)).filter (fun hs => hs.fileId == g)).length
      = if (⟨sid, g⟩ : Scene) ∈ scenes then 1 else 0 := by
  rw [List.filter_filter]
  have hcong : scenes.filter (fun hs => hs.fileId == g && hs.sceneId == sid)
      = scenes.filter (fun hs => hs == (⟨sid, g⟩ : Scene)) := by
    apply List.filter_congr
    intro hs _
    obtain ⟨s, fid⟩ := hs
    rw [Bool.eq_iff_iff]
    simp [Scene.mk.injEq, and_comm]
  rw [hcong]
  have hcount : (scenes.filter (fun hs => hs == (⟨sid, g⟩ : Scene))).length
      = scenes.count (⟨sid, g⟩ : Scene) := by
    rw [List.count, List.countP_eq_length_filter]
  rw [hcount]
  by_cases hm : (⟨sid, g⟩ : Scene) ∈ scenes
  · rw [if_pos hm]
    exact List.count_eq_one_of_mem hnd hm
  · rw [if_neg hm]
    exact List.count_eq_zero_of_not_mem hm

theorem mem_sceneIds_of_file (scenes : List Scene) (g : Int) (sid : SceneId) :
    sid ∈ (scenes.filter (fun s => s.fileId == g)).map Scene.sceneId
      ↔ (⟨sid, g⟩ : Scene) ∈ scenes := by
  rw [List.mem_map]
  constructor
  · rintro ⟨hs, hmem, rfl⟩
    obtain ⟨hin, hg⟩ := List.mem_filter.mp hmem
    have hhs : hs = ⟨hs.sceneId, g⟩ := by
      obtain ⟨a, b⟩ := hs
      simp only [beq_iff_eq] at hg
      simp only at hg ⊢
      rw [hg]
    exact hhs ▸ hin
  · intro h
    exact ⟨⟨sid, g⟩, List.mem_filter.mpr ⟨h, by simp⟩, rfl⟩

theorem mem_sharedIds (scenes : List Scene) (f g : Int) (sid : SceneId) :
    sid ∈ sharedIds scenes f g
      ↔ (⟨sid, f⟩ : Scene) ∈ scenes ∧ (⟨sid, g⟩ : Scene) ∈ scenes := by
  rw [sharedIds, List.mem_filter]
  rw [decide_eq_true_eq, mem_sceneIds_of_file, mem_sceneIds_of_file]

theorem sum_contrib (scenes : List Scene) (hnd : scenes.Nodup) (f g : Int) :
    ((scenes.filter (fun s => s.fileId == f)).map (fun fs =>
        ((scenes.filter (fun hs => hs.sceneId == fs.sceneId)).filter
            (fun hs => hs.fileId == g)).length * fs.sceneId.durationMs)).sum
      = sharedDuration scenes f g := by
  have hstep : ∀ fs : Scene,
      ((scenes.filter (fun hs => hs.sceneId == fs.sceneId)).filter
          (fun hs => hs.fileId == g)).length * fs.sceneId.durationMs
        = if (⟨fs.sceneId, g⟩ : Scene) ∈ scenes then fs.sceneId.durationMs else 0 := by
    intro fs
    rw [double_filter_count scenes hnd fs.sceneId g]
    by_cases hm : (⟨fs.sceneId, g⟩ : Scene) ∈ scenes
    · rw [if_pos hm, if_pos hm, Nat.one_mul]
    · rw [if_neg hm, if_neg hm, Nat.zero_mul]
  rw [List.map_congr_left (fun fs _ => hstep fs)]
  rw [sharedDuration, sharedIds,
    sum_map_filter
      (fun sid => decide (sid ∈ (scenes.filter (fun s => s.fileId == g)).map Scene.sceneId))
      SceneId.durationMs ((scenes.filter (fun s => s.fileId == f)).map Scene.sceneId),
    List.map_map]
  apply congrArg List.sum
  apply List.map_congr_left
  intro fs _
  simp only [Function.comp]
  by_cases hm : (⟨fs.sceneId, g⟩ : Scene) ∈ scenes
  · rw [if_pos hm, if_pos (by
      simp only [decide_eq_true_eq, mem_sceneIds_of_file]
      exact hm)]
  · rw [if_neg hm, if_neg (by
      simp only [decide_eq_true_eq, mem_sceneIds_of_file]
      exact hm)]

end Vidup

namespace Vidup

theorem nodup_sharedIds (scenes : List Scene) (hnd : scenes.Nodup) (f g : Int) :
    (sharedIds scenes f g).Nodup := by
  apply List.Nodup.filter
  apply List.Nodup.map_on
  · intro x hx y hy hxy
    obtain ⟨hxin, hxf⟩ := List.mem_filter.mp hx
    obtain ⟨hyin, hyf⟩ := List.mem_filter.mp hy
    simp only [beq_iff_eq] at hxf hyf
    obtain ⟨xs, xf⟩ := x
    obtain ⟨ys, yf⟩ := y
    simp only at hxf hyf hxy
    rw [hxf, hyf, hxy]
  · exact hnd.filter _

theorem sharedDuration_comm (scenes : List Scene) (hnd : scenes.Nodup) (f g : Int) :
    sharedDuration scenes f g = sharedDuration scenes g f := by
  have hperm : (sharedIds scenes f g).Perm (sharedIds scenes g f) := by
    apply (List.perm_ext_iff_of_nodup (nodup_sharedIds scenes hnd f g)
      (nodup_sharedIds scenes hnd g f)).mpr
    intro sid
    rw [mem_sharedIds, mem_sharedIds, and_comm]
  exact (hperm.map SceneId.durationMs).sum_eq

theorem sharedIds_ne_nil_iff (scenes : List Scene) (f g : Int) :
    sharedIds scenes f g ≠ []
      ↔ ∃ sid, (⟨sid, f⟩ : Scene) ∈ scenes ∧ (⟨sid, g⟩ : Scene) ∈ scenes := by
  constructor
  · intro h
    obtain ⟨sid, hsid⟩ := List.exists_mem_of_ne_nil _ h
    exact ⟨sid, (mem_sharedIds scenes f g sid).mp hsid⟩
  · rintro ⟨sid, h1, h2⟩
    exact List.ne_nil_of_mem ((mem_sharedIds scenes f g sid).mpr ⟨h1, h2⟩)

end Vidup

namespace Vidup

/-! ### top: the relation loop -/

theorem keys_accum_iff (remaining : List Int) (scenes : List Scene) (f' j : Int) :
    j ∈ (accumRelation remaining scenes f').map Prod.fst
      ↔ j ∈ remaining
        ∧ ∃ sid, (⟨sid, f'⟩ : Scene) ∈ scenes ∧ (⟨sid, j⟩ : Scene) ∈ scenes := by
  rw [(accumRelation_spec remaining scenes f').2.1 j, List.elem_iff]
  constructor
  · rintro ⟨hc, fs, hfs, hs, hhs, rfl⟩
    obtain ⟨hfsin, hfsf⟩ := List.mem_filter.mp hfs
    obtain ⟨hhsin, hhss⟩ := List.mem_filter.mp hhs
    simp only [beq_iff_eq] at hfsf hhss
    refine ⟨hc, fs.sceneId, ?_, ?_⟩
    · obtain ⟨a, b⟩ := fs
      simp only at hfsf ⊢
      rw [← hfsf]
      exact hfsin
    · obtain ⟨a, b⟩ := hs
      simp only at hhss ⊢
      rw [← hhss]
      exact hhsin
  · rintro ⟨hc, sid, h1, h2⟩
    exact ⟨hc, ⟨sid, f'⟩, List.mem_filter.mpr ⟨h1, by simp⟩,
      ⟨sid, j⟩, List.mem_filter.mpr ⟨h2, by simp⟩, rfl⟩

theorem accum_value (remaining : List Int) (scenes : List Scene) (hnd : scenes.Nodup)
    (f' k : Int) (v : Nat) (hin : (k, v) ∈ accumRelation remaining scenes f') :
    v = sharedDuration scenes f' k % wordSize := by
  obtain ⟨hsorted, hkeys, hval⟩ := accumRelation_spec remaining scenes f'
  have hk : k ∈ (accumRelation remaining scenes f').map Prod.fst :=
    List.mem_map.mpr ⟨(k, v), hin, rfl⟩
  have hv := mval_of_mem k v _ hsorted hin
  rw [hval k, if_pos ((hkeys k).mp hk).1, sum_contrib scenes hnd f' k] at hv
  exact hv.symm

theorem relLoop_countP (scenes : List Scene) (f g : Int) (hfg : f < g) :
    ∀ ids : List Int, ids.Pairwise (fun a b => a < b) →
    (relLoop scenes ids).countP
        (fun e => decide ((e.1 = f ∧ e.2.1 = g) ∨ (e.1 = g ∧ e.2.1 = f)))
      = if f ∈ ids ∧ g ∈ ids ∧ sharedIds scenes f g ≠ [] then 1 else 0 := by
  intro ids
  induction ids with
  | nil =>
    intro _
    rw [if_neg (by simp)]
    rfl
  | cons a rest ih =>
    intro hp
    rw [List.pairwise_cons] at hp
    have hanr : a ∉ rest := fun hc => absurd (hp.1 a hc) (lt_irrefl a)
    rw [relLoop, List.countP_append, List.countP_map, ih hp.2]
    by_cases haf : a = f
    · subst haf
      have hconv : ((accumRelation rest scenes a).countP
            ((fun e => decide ((e.1 = a ∧ e.2.1 = g) ∨ (e.1 = g ∧ e.2.1 = a)))
              ∘ (fun gd => (a, gd.1, gd.2))))
          = (accumRelation rest scenes a).countP (fun gd => gd.1 = g) := by
        apply List.countP_congr
        intro gd _
        simp only [Function.comp, decide_eq_true_eq]
        constructor
        · rintro (⟨-, h⟩ | ⟨hc, -⟩)
          · exact h
          · exact absurd hc (by omega)
        · intro h
          simp [h]
      rw [hconv, countP_key g _ (accumRelation_spec rest scenes a).1]
      have hkeyiff : (g ∈ (accumRelation rest scenes a).map Prod.fst)
          ↔ (g ∈ rest ∧ sharedIds scenes a g ≠ []) := by
        rw [keys_accum_iff, sharedIds_ne_nil_iff]
      have hihz : (if a ∈ rest ∧ g ∈ rest ∧ sharedIds scenes a g ≠ []
          then (1 : Nat) else 0) = 0 := if_neg (fun hc => hanr hc.1)
      rw [hihz]
      by_cases hcond : g ∈ rest ∧ sharedIds scenes a g ≠ []
      · rw [if_pos (hkeyiff.mpr hcond),
          if_pos ⟨List.mem_cons_self a rest,
            List.mem_cons_of_mem a hcond.1, hcond.2⟩]
      · rw [if_neg (fun hc => hcond (hkeyiff.mp hc)),
          if_neg (fun hc => hcond
            ⟨(List.mem_cons.mp hc.2.1).resolve_left (fun he => by omega), hc.2.2⟩)]
    · by_cases hag : a = g
      · subst hag
        have hconv : ((accumRelation rest scenes a).countP
              ((fun e => decide ((e.1 = f ∧ e.2.1 = a) ∨ (e.1 = a ∧ e.2.1 = f)))
                ∘ (fun gd => (a, gd.1, gd.2))))
            = (accumRelation rest scenes a).countP (fun gd => gd.1 = f) := by
          apply List.countP_congr
          intro gd _
          simp only [Function.comp, decide_eq_true_eq]
          constructor
          · rintro (⟨hc, -⟩ | ⟨-, h⟩)
            · exact absurd hc (by omega)
            · exact h
          · intro h
            simp [h]
        rw [hconv, countP_key f _ (accumRelation_spec rest scenes a).1]
        have hkz : (if f ∈ (accumRelation rest scenes a).map Prod.fst
            then (1 : Nat) else 0) = 0 := by
          apply if_neg
          intro hc
          have hf : f ∈ rest := ((keys_accum_iff rest scenes a f).mp hc).1
          have := hp.1 f hf
          omega
        have hihz : (if f ∈ rest ∧ a ∈ rest ∧ sharedIds scenes f a ≠ []
            then (1 : Nat) else 0) = 0 := if_neg (fun hc => hanr hc.2.1)
        rw [hkz, hihz, if_neg (fun hc => by
          rcases List.mem_cons.mp hc.1 with he | hf
          · omega
          · have := hp.1 f hf
            omega)]
      · have hzero : ((accumRelation rest scenes a).countP
              ((fun e => decide ((e.1 = f ∧ e.2.1 = g) ∨ (e.1 = g ∧ e.2.1 = f)))
                ∘ (fun gd => (a, gd.1, gd.2)))) = 0 := by
          apply List.countP_eq_zero.mpr
          intro gd _
          simp only [Function.comp, decide_eq_true_eq]
          rintro (⟨hc, -⟩ | ⟨hc, -⟩)
          · exact haf hc
          · exact hag hc
        rw [hzero]
        have hiff : (f ∈ a :: rest ∧ g ∈ a :: rest ∧ sharedIds scenes f g ≠ [])
            ↔ (f ∈ rest ∧ g ∈ rest ∧ sharedIds scenes f g ≠ []) := by
          rw [List.mem_cons, List.mem_cons,
            or_iff_right (fun he => haf he.symm), or_iff_right (fun he => hag he.symm)]
        rw [if_congr hiff rfl rfl]
        omega

theorem relLoop_value (scenes : List Scene) (hnd : scenes.Nodup) (f g : Int)
    (hfg : f ≠ g) :
    ∀ ids : List Int, ∀ e ∈ relLoop scenes ids,
    ((e.1 = f ∧ e.2.1 = g) ∨ (e.1 = g ∧ e.2.1 = f)) →
    e.2.2 = sharedDuration scenes f g % wordSize := by
  intro ids
  induction ids with
  | nil => intro e he; simp [relLoop] at he
  | cons a rest ih =>
    intro e he hP
    rw [relLoop] at he
    rcases List.mem_append.mp he with hm | hm
    · obtain ⟨⟨k, v⟩, hkv, rfl⟩ := List.mem_map.mp hm
      simp only at hP
      rcases hP with ⟨rfl, rfl⟩ | ⟨rfl, rfl⟩
      · exact accum_value rest scenes hnd _ _ v hkv
      · rw [accum_value rest scenes hnd _ _ v hkv,
          sharedDuration_comm scenes hnd _ _]
    · exact ih e hm hP

end Vidup

namespace Vidup

theorem sharedIds_ne_nil_comm (scenes : List Scene) (f g : Int) :
    sharedIds scenes g f ≠ [] ↔ sharedIds scenes f g ≠ [] := by
  rw [sharedIds_ne_nil_iff, sharedIds_ne_nil_iff]
  constructor <;> rintro ⟨sid, h1, h2⟩ <;> exact ⟨sid, h2, h1⟩

end Vidup

/-- Claim C3: in `top`, the destructive consumption of the working file set
guarantees that every unordered file pair {f, g} sharing at least one
candidate SceneId contributes exactly one entry to the output relation
(counting both orientations, so the output never contains both an (f, g) and
a (g, f) entry), with weight equal to the sum of the shared scenes'
durations.  `foundScenes` are the candidate rows `top` collects; `hnd`
mirrors that they are distinct (`getTopHashes` groups are distinct and
`getScenesByHash` returns DISTINCT file ids). -/
theorem c3_top_pair_weighted_once (foundScenes : List Vidup.Scene) (f g : Int)
    (hnd : foundScenes.Nodup) (hfg : f ≠ g)
    (hsum : Vidup.sharedDuration foundScenes f g < Vidup.wordSize) :
    (Vidup.topRelations foundScenes).countP
        (fun e => decide ((e.1 = f ∧ e.2.1 = g) ∨ (e.1 = g ∧ e.2.1 = f)))
      = (if Vidup.sharedIds foundScenes f g ≠ [] then 1 else 0)
    ∧ ∀ e ∈ Vidup.topRelations foundScenes,
        ((e.1 = f ∧ e.2.1 = g) ∨ (e.1 = g ∧ e.2.1 = f)) →
        e.2.2 = Vidup.sharedDuration foundScenes f g := by
  constructor
  · rw [Vidup.topRelations, (Vidup.sortLe_perm _ _).countP_eq]
    rcases lt_or_gt_of_ne hfg with hlt | hgt
    · rw [Vidup.relLoop_countP foundScenes f g hlt _ (Vidup.fileIdSet_sorted foundScenes)]
      by_cases hsh : Vidup.sharedIds foundScenes f g ≠ []
      · obtain ⟨sid, h1, h2⟩ := (Vidup.sharedIds_ne_nil_iff foundScenes f g).mp hsh
        rw [if_pos ⟨(Vidup.mem_fileIdSet foundScenes f).mpr ⟨⟨sid, f⟩, h1, rfl⟩,
            (Vidup.mem_fileIdSet foundScenes g).mpr ⟨⟨sid, g⟩, h2, rfl⟩, hsh⟩,
          if_pos hsh]
      · rw [if_neg (fun hc => hsh hc.2.2), if_neg hsh]
    · have hconv : (Vidup.relLoop foundScenes (Vidup.fileIdSet foundScenes)).countP
          (fun e => decide ((e.1 = f ∧ e.2.1 = g) ∨ (e.1 = g ∧ e.2.1 = f)))
          = (Vidup.relLoop foundScenes (Vidup.fileIdSet foundScenes)).countP
            (fun e => decide ((e.1 = g ∧ e.2.1 = f) ∨ (e.1 = f ∧ e.2.1 = g))) := by
        apply List.countP_congr
        intro e _
        simp only [decide_eq_true_eq]
        exact or_comm
      rw [hconv,
        Vidup.relLoop_countP foundScenes g f hgt _ (Vidup.fileIdSet_sorted foundScenes)]
      by_cases hsh : Vidup.sharedIds foundScenes f g ≠ []
      · obtain ⟨sid, h1, h2⟩ := (Vidup.sharedIds_ne_nil_iff foundScenes f g).mp hsh
        rw [if_pos ⟨(Vidup.mem_fileIdSet foundScenes g).mpr ⟨⟨sid, g⟩, h2, rfl⟩,
            (Vidup.mem_fileIdSet foundScenes f).mpr ⟨⟨sid, f⟩, h1, rfl⟩,
            (Vidup.sharedIds_ne_nil_comm foundScenes f g).mpr hsh⟩,
          if_pos hsh]
      · rw [if_neg (fun hc =>
            hsh ((Vidup.sharedIds_ne_nil_comm foundScenes f g).mp hc.2.2)),
          if_neg hsh]
  · intro e he hP
    rw [Vidup.topRelations] at he
    have hmem := Vidup.mem_sortLe.mp he
    rw [Vidup.relLoop_value foundScenes hnd f g hfg _ e hmem hP]
    exact Nat.mod_eq_of_lt hsum

/-- Witness for C3: files 1 and 2 share the 5000 ms scene, files 2 and 3
share the 3000 ms scene; the pair {1, 2} appears exactly once and carries
weight 5000. -/
theorem c3_top_pair_weighted_once_witness :
    ((Vidup.topRelations
          [⟨⟨1, 5000⟩, 1⟩, ⟨⟨1, 5000⟩, 2⟩, ⟨⟨2, 3000⟩, 2⟩, ⟨⟨2, 3000⟩, 3⟩]).countP
        (fun e => decide ((e.1 = 1 ∧ e.2.1 = 2) ∨ (e.1 = 2 ∧ e.2.1 = 1))) = 1)
      ∧ ∀ e ∈ Vidup.topRelations
            [⟨⟨1, 5000⟩, 1⟩, ⟨⟨1, 5000⟩, 2⟩, ⟨⟨2, 3000⟩, 2⟩, ⟨⟨2, 3000⟩, 3⟩],
          ((e.1 = 1 ∧ e.2.1 = 2) ∨ (e.1 = 2 ∧ e.2.1 = 1)) → e.2.2 = 5000 := by
  obtain ⟨h1, h2⟩ := c3_top_pair_weighted_once
    [⟨⟨1, 5000⟩, 1⟩, ⟨⟨1, 5000⟩, 2⟩, ⟨⟨2, 3000⟩, 2⟩, ⟨⟨2, 3000⟩, 3⟩] 1 2
    (by decide) (by decide) (by decide)
  constructor
  · rw [h1, if_pos (by decide)]
  · intro e he hP
    rw [h2 e he hP]
    decide
